import Mathlib

/-!
Verification development for the pdf_splitter outline-resolution pipeline
(`src/main.rs`).  The PDF object model (lopdf's `Object`), the document's
object store and the core functions `decode_pdf_string`, `resolve_object`,
`collect_name_tree_recursive`, `collect_bookmarks_top_level`, `resolve_dest`
and the chapter-boundary computation of `main` are shallowly embedded below.

Conventions of the embedding:
* byte strings and decoded text are `List Nat` (byte values, resp. Unicode
  scalar values);
* the unbounded recursion / loops of the Rust code are given an explicit
  fuel parameter and return `none` exactly when the fuel runs out, so that
  non-termination of the original code is observable as "no fuel suffices";
* `HashMap<Vec<u8>, Object>` is modelled as an association list where
  `insert` prepends and lookup takes the first hit, which realises the
  observable insert-overwrites semantics of the map;
* Rust's stable `sort_by_key` is modelled by a stable insertion sort and
  `Vec::dedup_by_key` by an explicit scan keeping the first element of each
  run of equal keys.
-/

namespace PdfSplit

/-! ### Dictionary-key byte constants (ASCII of the Rust byte literals) -/

/-- Bytes of `b"Root"`. -/
def bRoot : List Nat := [82, 111, 111, 116]

/-- Bytes of `b"Names"`. -/
def bNames : List Nat := [78, 97, 109, 101, 115]

/-- Bytes of `b"Dests"`. -/
def bDests : List Nat := [68, 101, 115, 116, 115]

/-- Bytes of `b"Kids"`. -/
def bKids : List Nat := [75, 105, 100, 115]

/-- Bytes of `b"Title"`. -/
def bTitle : List Nat := [84, 105, 116, 108, 101]

/-- Bytes of `b"Dest"`. -/
def bDest : List Nat := [68, 101, 115, 116]

/-- Bytes of `b"A"`. -/
def bA : List Nat := [65]

/-- Bytes of `b"S"`. -/
def bS : List Nat := [83]

/-- Bytes of `b"D"`. -/
def bD : List Nat := [68]

/-- Bytes of `b"Next"`. -/
def bNext : List Nat := [78, 101, 120, 116]

/-- Bytes of `b"First"`. -/
def bFirst : List Nat := [70, 105, 114, 115, 116]

/-- Bytes of `b"Outlines"`. -/
def bOutlines : List Nat := [79, 117, 116, 108, 105, 110, 101, 115]

/-- Bytes of the name `"GoTo"`. -/
def bGoTo : List Nat := [71, 111, 84, 111]

/-- Scalar values of the fallback title `"No Title"` (main.rs line 275). -/
def noTitleTitle : List Nat := [78, 111, 32, 84, 105, 116, 108, 101]

/-- Scalar values of the fallback chapter title `"FullDocument"` (line 157). -/
def fullDocumentTitle : List Nat := [70, 117, 108, 108, 68, 111, 99, 117, 109, 101, 110, 116]

/-- The log entry `format!("Skipped: '{}'", title)` of main.rs line 300. -/
def skippedMsg (t : List Nat) : List Nat := [83, 107, 105, 112, 112, 101, 100, 58, 32, 39] ++ t ++ [39]

/-! ### The lopdf object model -/

/-- lopdf `StringFormat` (never inspected by this core, carried for fidelity). -/
inductive StringFormat where
  | literal
  | hexadecimal
deriving DecidableEq

/-- lopdf `ObjectId = (u32, u16)`. -/
abbrev ObjectId := Nat × Nat

/-- lopdf `Object`.  The `Real` payload (an `f32`) is never read by any code
of this core, so it is not carried; the `Stream` payload beyond its
dictionary is likewise never read here. -/
inductive Object where
  | null
  | boolean (b : Bool)
  | integer (i : Int)
  | real
  | string (bytes : List Nat) (fmt : StringFormat)
  | name (bytes : List Nat)
  | array (elems : List Object)
  | dict (entries : List (List Nat × Object))
  | stream (dict : List (List Nat × Object))
  | ref (id : ObjectId)

/-- lopdf `Dictionary`: unique keys, lookup is by key bytes. -/
abbrev Dict := List (List Nat × Object)

/-- The external object store: `doc.objects` plus the trailer dictionary. -/
structure Document where
  objects : List (ObjectId × Object)
  trailer : Dict

/-- The page index `object_id_to_page` (main.rs lines 65-69). -/
abbrev PageMap := List (ObjectId × Nat)

/-- The named-destination table `named_dests : HashMap<Vec<u8>, Object>`. -/
abbrev NamedDests := List (List Nat × Object)

/-! ### Accessors (lopdf `Object::as_*`, `Document::get_object`) -/

/-- `Object::as_reference` (success as `some`). -/
def asReferenceO : Object → Option ObjectId
  | .ref id => some id
  | _ => none

/-- `Object::as_dict` (success as `some`). -/
def asDictO : Object → Option Dict
  | .dict es => some es
  | _ => none

/-- `Object::as_array` (success as `some`). -/
def asArrayO : Object → Option (List Object)
  | .array es => some es
  | _ => none

/-- `Object::as_str` (the raw bytes of a `String` object). -/
def asStrO : Object → Option (List Nat)
  | .string bs _ => some bs
  | _ => none

/-- `Dictionary::get` (first entry with the given key bytes). -/
def dictGet (d : Dict) (k : List Nat) : Option Object :=
  (d.find? (fun e => decide (e.1 = k))).map (fun e => e.2)

/-- `Document::get_object`. -/
def getObject (doc : Document) (id : ObjectId) : Option Object :=
  (doc.objects.find? (fun e => decide (e.1 = id))).map (fun e => e.2)

/-- `resolve_object` (main.rs lines 218-223): dereference exactly one level
of `Reference`, propagating a failed lookup. -/
def resolveObject (doc : Document) : Object → Option Object
  | .ref id => getObject doc id
  | o => some o

/-- `doc.get_object(id).and_then(|o| o.as_dict())`. -/
def getDict (doc : Document) (id : ObjectId) : Option Dict :=
  (getObject doc id).bind asDictO

/-- `page_map.get(&page_ref).cloned()`. -/
def pmGet (pm : PageMap) (id : ObjectId) : Option Nat :=
  (pm.find? (fun e => decide (e.1 = id))).map (fun e => e.2)

/-- `HashMap::insert` (observationally: the new binding shadows old ones). -/
def ndInsert (m : NamedDests) (k : List Nat) (v : Object) : NamedDests :=
  (k, v) :: m

/-- `HashMap::get`. -/
def ndGet (m : NamedDests) (k : List Nat) : Option Object :=
  (m.find? (fun e => decide (e.1 = k))).map (fun e => e.2)

/-- Key presence in the named-destination table. -/
def ndHasKey (m : NamedDests) (k : List Nat) : Prop :=
  (ndGet m k).isSome = true

/-! ### The string decoder (`decode_pdf_string`, main.rs lines 20-30) -/

/-- `bytes[2..].chunks_exact(2).map(u16::from_be_bytes)`: consecutive exact
big-endian 16-bit pairs, a trailing odd byte is dropped. -/
def bytesToU16BE : List Nat → List Nat
  | b1 :: b2 :: rest => (b1 * 256 + b2) :: bytesToU16BE rest
  | _ => []

/-- `String::from_utf16`: decode UTF-16 code units, failing on any unpaired
surrogate. -/
def utf16Decode : List Nat → Option (List Nat)
  | [] => some []
  | u :: rest =>
    if u < 0xD800 ∨ 0xDFFF < u then
      (utf16Decode rest).map (fun l => u :: l)
    else if u ≤ 0xDBFF then
      match rest with
      | u2 :: rest2 =>
        if 0xDC00 ≤ u2 ∧ u2 ≤ 0xDFFF then
          (utf16Decode rest2).map
            (fun l => (0x10000 + (u - 0xD800) * 0x400 + (u2 - 0xDC00)) :: l)
        else none
      | [] => none
    else none

/-- UTF-8 continuation byte test (`0x80..=0xBF`). -/
def isCont (b : Nat) : Bool := decide (0x80 ≤ b ∧ b ≤ 0xBF)

/-- Admissible second byte of a three-byte UTF-8 sequence (per Rust's
`core::str` validation: `E0` requires `A0..=BF`, `ED` requires `80..=9F`). -/
def valid3Second (b0 b1 : Nat) : Bool :=
  if b0 = 0xE0 then decide (0xA0 ≤ b1 ∧ b1 ≤ 0xBF)
  else if b0 = 0xED then decide (0x80 ≤ b1 ∧ b1 ≤ 0x9F)
  else isCont b1

/-- Admissible second byte of a four-byte UTF-8 sequence (`F0` requires
`90..=BF`, `F4` requires `80..=8F`). -/
def valid4Second (b0 b1 : Nat) : Bool :=
  if b0 = 0xF0 then decide (0x90 ≤ b1 ∧ b1 ≤ 0xBF)
  else if b0 = 0xF4 then decide (0x80 ≤ b1 ∧ b1 ≤ 0x8F)
  else isCont b1

/-- Worker for `fromUtf8Lossy`, structurally recursive on a fuel that
bounds the number of decoding steps.  Every step consumes at least one
byte, so fuel equal to the input length always suffices and the `0`
equation is never reached from `fromUtf8Lossy`. -/
def utf8LossyAux : Nat → List Nat → List Nat
  | 0, _ => []
  | _ + 1, [] => []
  | fuel + 1, b0 :: rest =>
    if b0 < 0x80 then b0 :: utf8LossyAux fuel rest
    else if 0xC2 ≤ b0 ∧ b0 ≤ 0xDF then
      match rest with
      | [] => [0xFFFD]
      | b1 :: rest1 =>
        if isCont b1 then ((b0 % 0x20) * 0x40 + (b1 % 0x40)) :: utf8LossyAux fuel rest1
        else 0xFFFD :: utf8LossyAux fuel (b1 :: rest1)
    else if 0xE0 ≤ b0 ∧ b0 ≤ 0xEF then
      match rest with
      | [] => [0xFFFD]
      | b1 :: rest1 =>
        if valid3Second b0 b1 then
          match rest1 with
          | [] => [0xFFFD]
          | b2 :: rest2 =>
            if isCont b2 then
              ((b0 % 0x10) * 0x1000 + (b1 % 0x40) * 0x40 + (b2 % 0x40)) :: utf8LossyAux fuel rest2
            else 0xFFFD :: utf8LossyAux fuel (b2 :: rest2)
        else 0xFFFD :: utf8LossyAux fuel (b1 :: rest1)
    else if 0xF0 ≤ b0 ∧ b0 ≤ 0xF4 then
      match rest with
      | [] => [0xFFFD]
      | b1 :: rest1 =>
        if valid4Second b0 b1 then
          match rest1 with
          | [] => [0xFFFD]
          | b2 :: rest2 =>
            if isCont b2 then
              match rest2 with
              | [] => [0xFFFD]
              | b3 :: rest3 =>
                if isCont b3 then
                  ((b0 % 0x8) * 0x40000 + (b1 % 0x40) * 0x1000 +
                    (b2 % 0x40) * 0x40 + (b3 % 0x40)) :: utf8LossyAux fuel rest3
                else 0xFFFD :: utf8LossyAux fuel (b3 :: rest3)
            else 0xFFFD :: utf8LossyAux fuel (b2 :: rest2)
        else 0xFFFD :: utf8LossyAux fuel (b1 :: rest1)
    else 0xFFFD :: utf8LossyAux fuel rest

/-- `String::from_utf8_lossy`: WHATWG-style decoding with substitution of
maximal invalid subparts by U+FFFD, following Rust's `Utf8Chunks` semantics
(an invalid or truncated sequence contributes exactly one U+FFFD and
decoding resumes at the first byte not consumed by the valid prefix). -/
def fromUtf8Lossy (l : List Nat) : List Nat := utf8LossyAux l.length l

/-- `decode_pdf_string` (main.rs lines 20-30): with the `FE FF` marker the
remainder is decoded as big-endian UTF-16 built from exact pairs, falling
back to a lossy UTF-8 decode of the whole input if UTF-16 decoding fails;
otherwise the whole input is decoded as lossy UTF-8. -/
def decode_pdf_string (bytes : List Nat) : List Nat :=
  match bytes with
  | b0 :: b1 :: rest =>
    if b0 = 0xFE ∧ b1 = 0xFF then
      match utf16Decode (bytesToU16BE rest) with
      | some s => s
      | none => fromUtf8Lossy (b0 :: b1 :: rest)
    else fromUtf8Lossy (b0 :: b1 :: rest)
  | bytes => fromUtf8Lossy bytes

/-! ### Named-destination table builder (main.rs lines 71-123, 225-257) -/

/-- The `names.chunks(2)` loop of `collect_name_tree_recursive` and of the
direct-dictionary branch of `main`: insert each complete (key, value) pair,
where the key is the byte content of a `String` or `Name` object. -/
def insertNamesPairs (m : NamedDests) : List Object → NamedDests
  | k :: v :: rest =>
    insertNamesPairs
      (match k with
       | .string bs _ => ndInsert m bs v
       | .name bs => ndInsert m bs v
       | _ => m) rest
  | _ => m

/-- The `Names`-array handling of `collect_name_tree_recursive` (main.rs
lines 227-244): insert the node's own (key, value) pairs, if any. -/
def nodeNamesInsert (doc : Document) (node : Dict) (m : NamedDests) : NamedDests :=
  match dictGet node bNames with
  | none => m
  | some namesObj =>
    match resolveObject doc namesObj with
    | none => m
    | some namesReal =>
      match asArrayO namesReal with
      | none => m
      | some names => insertNamesPairs m names

/-- `collect_name_tree_recursive` (main.rs lines 225-257) with explicit fuel:
`none` means the fuel ran out (the Rust recursion would still be running). -/
def collectNameTree (doc : Document) : Nat → ObjectId → NamedDests → Option NamedDests
  | 0, _, _ => none
  | fuel + 1, id, m =>
    match getDict doc id with
    | none => some m
    | some node =>
      match dictGet node bKids with
      | none => some (nodeNamesInsert doc node m)
      | some kidsObj =>
        match resolveObject doc kidsObj with
        | none => some (nodeNamesInsert doc node m)
        | some kidsReal =>
          match asArrayO kidsReal with
          | none => some (nodeNamesInsert doc node m)
          | some kids =>
            kids.foldl
              (fun a kid =>
                match a with
                | none => none
                | some mm =>
                  match asReferenceO kid with
                  | some kidRef => collectNameTree doc fuel kidRef mm
                  | none => some mm)
              (some (nodeNamesInsert doc node m))

/-- The `for kid in kids` loop of `collect_name_tree_recursive`, named for
reasoning (definitionally the fold inside `collectNameTree`). -/
def collectKidsFold (doc : Document) (fuel : Nat) (kids : List Object)
    (acc : Option NamedDests) : Option NamedDests :=
  kids.foldl
    (fun a kid =>
      match a with
      | none => none
      | some mm =>
        match asReferenceO kid with
        | some kidRef => collectNameTree doc fuel kidRef mm
        | none => some mm)
    acc

/-- `doc.trailer.get(b"Root").and_then(as_reference)` followed by
`doc.get_object(..).and_then(as_dict)` (main.rs lines 75-76). -/
def catalogOf (doc : Document) : Option Dict :=
  match dictGet doc.trailer bRoot with
  | none => none
  | some rootObj =>
    match asReferenceO rootObj with
    | none => none
    | some catalogRef => getDict doc catalogRef

/-- The name-tree half of the table construction (main.rs lines 77-111):
if the catalog's Names dictionary has a `Dests` entry that resolves to a
dictionary, then either (a) the entry itself is a `Reference`, in which case
`collect_name_tree_recursive` is run on it, or (b) it is a direct dictionary,
in which case only that dictionary's own `Names` array is read. -/
def nameTreeFromCatalog (doc : Document) (catalog : Dict) (fuel : Nat) : Option NamedDests :=
  match dictGet catalog bNames with
  | none => some []
  | some namesObj =>
    match resolveObject doc namesObj with
    | none => some []
    | some namesReal =>
      match asDictO namesReal with
      | none => some []
      | some namesDict =>
        match dictGet namesDict bDests with
        | none => some []
        | some destsObj =>
          match resolveObject doc destsObj with
          | none => some []
          | some destsReal =>
            match asDictO destsReal with
            | none => some []
            | some destsDict =>
              match asReferenceO destsObj with
              | some treeRootId => collectNameTree doc fuel treeRootId []
              | none =>
                match dictGet destsDict bNames with
                | none => some []
                | some namesArrObj =>
                  match resolveObject doc namesArrObj with
                  | none => some []
                  | some namesArrReal =>
                    match asArrayO namesArrReal with
                    | none => some []
                    | some names => some (insertNamesPairs [] names)

/-- The legacy flat-dictionary half (main.rs lines 112-120): every entry of
a catalog-level `Dests` dictionary is inserted after the name-tree entries. -/
def insertAll (m : NamedDests) : List (List Nat × Object) → NamedDests
  | [] => m
  | (k, v) :: rest => insertAll (ndInsert m k v) rest

/-- Merge of the legacy `Dests` dictionary into the table. -/
def legacyMerge (doc : Document) (catalog : Dict) (m : NamedDests) : NamedDests :=
  match dictGet catalog bDests with
  | none => m
  | some destsObj =>
    match resolveObject doc destsObj with
    | none => m
    | some destsReal =>
      match asDictO destsReal with
      | none => m
      | some entries => insertAll m entries

/-- The whole named-destination table construction of `main`
(lines 73-122): name-tree entries first, then legacy entries. -/
def buildNamedDests (doc : Document) (fuel : Nat) : Option NamedDests :=
  match catalogOf doc with
  | none => some []
  | some catalog =>
    match nameTreeFromCatalog doc catalog fuel with
    | none => none
    | some m => some (legacyMerge doc catalog m)

/-! ### The destination resolver (`resolve_dest`, main.rs lines 312-355) -/

/-- The repeated "first array element must be a page reference" rule:
`arr.get(0)` must be a `Reference` found in the page map. -/
def arrayFirstPage (pm : PageMap) (o : Object) : Option Nat :=
  match asArrayO o with
  | none => none
  | some arr =>
    match arr.head? with
    | none => none
    | some first =>
      match asReferenceO first with
      | none => none
      | some pageRef => pmGet pm pageRef

/-- The key extracted from a `String` or `Name` destination value. -/
def destKeyOf : Object → Option (List Nat)
  | .string bs _ => some bs
  | .name bs => some bs
  | _ => none

/-- The stored-target handling of `resolve_dest` (main.rs lines 333-351):
resolve the table hit once; an array is probed with the array rule; a
dictionary has its `D` field resolved once and probed with the array rule.
The Rust fall-through after a failed inner array probe is extensionally
the same as the `arrayFirstPage` call here, because an `Array` is never a
`Dictionary`. -/
def resolveTargetPage (doc : Document) (pm : PageMap) (tgt : Object) : Option Nat :=
  match resolveObject doc tgt with
  | none => none
  | some resolvedTarget =>
    match asArrayO resolvedTarget with
    | some _ => arrayFirstPage pm resolvedTarget
    | none =>
      match asDictO resolvedTarget with
      | none => none
      | some entries =>
        match dictGet entries bD with
        | none => none
        | some innerD =>
          match resolveObject doc innerD with
          | none => none
          | some innerReal => arrayFirstPage pm innerReal

/-- `resolve_dest` (main.rs lines 312-355). -/
def resolve_dest (doc : Document) (destObj : Object) (pm : PageMap)
    (nd : NamedDests) : Option Nat :=
  match resolveObject doc destObj with
  | none => none
  | some realDest =>
    match asArrayO realDest with
    | some _ => arrayFirstPage pm realDest
    | none =>
      match destKeyOf realDest with
      | none => none
      | some k =>
        match ndGet nd k with
        | none => none
        | some tgt => resolveTargetPage doc pm tgt

/-! ### The outline walker (`collect_bookmarks_top_level`, main.rs 259-310) -/

/-- The title of an outline node (main.rs lines 271-275): the decoded bytes
of a `String`-typed `Title` entry, else the fixed fallback `"No Title"`. -/
def titleOf (item : Dict) : List Nat :=
  match dictGet item bTitle with
  | some o =>
    match asStrO o with
    | some bs => decode_pdf_string bs
    | none => noTitleTitle
  | none => noTitleTitle

/-- The `GoTo`-action fallback of the walker (main.rs lines 282-295).  The
Rust `as_name_str` comparison with `"GoTo"` is byte equality with `bGoTo`
(its UTF-8 validity check cannot fail on a byte string equal to `"GoTo"`). -/
def actionTargetPage (doc : Document) (pm : PageMap) (nd : NamedDests)
    (actionObj : Object) : Option Nat :=
  match resolveObject doc actionObj with
  | none => none
  | some actionReal =>
    match asDictO actionReal with
    | none => none
    | some action =>
      if (match dictGet action bS with
          | some (.name bs) => decide (bs = bGoTo)
          | some _ => false
          | none => false) then
        match dictGet action bD with
        | some d => resolve_dest doc d pm nd
        | none => none
      else none

/-- The per-node target-page computation (main.rs lines 277-296): try the
`Dest` entry, then fall back to the `D` entry of a `GoTo` action. -/
def nodeTargetPage (doc : Document) (pm : PageMap) (nd : NamedDests)
    (item : Dict) : Option Nat :=
  match (match dictGet item bDest with
         | some d => resolve_dest doc d pm nd
         | none => none) with
  | some p => some p
  | none =>
    match dictGet item bA with
    | none => none
    | some actionObj => actionTargetPage doc pm nd actionObj

/-- `item.get(b"Next").ok().and_then(|o| o.as_reference().ok())`. -/
def nextOf (item : Dict) : Option ObjectId :=
  match dictGet item bNext with
  | some o => asReferenceO o
  | none => none

/-- `collect_bookmarks_top_level` (main.rs lines 259-310) with explicit
fuel: the `while` loop that walks the `Next` sibling chain, emitting a
(page, title) pair when the destination resolves and a skip-log entry
otherwise.  `none` means the fuel ran out (the Rust loop would still be
running). -/
def collectBookmarks (doc : Document) (pm : PageMap) (nd : NamedDests) :
    Nat → Option ObjectId → Option (List (Nat × List Nat) × List (List Nat))
  | _, none => some ([], [])
  | 0, some _ => none
  | fuel + 1, some id =>
    match getDict doc id with
    | none => some ([], [])
    | some item =>
      match collectBookmarks doc pm nd fuel (nextOf item) with
      | none => none
      | some (rs, lg) =>
        match nodeTargetPage doc pm nd item with
        | some p => some ((p, titleOf item) :: rs, lg)
        | none => some (rs, skippedMsg (titleOf item) :: lg)

/-- The outline scan of `main` (lines 129-153): from the catalog's
`Outlines` dictionary take the `First` reference and walk the chain. -/
def scanOutlines (doc : Document) (pm : PageMap) (nd : NamedDests) (fuel : Nat) :
    Option (List (Nat × List Nat) × List (List Nat)) :=
  match catalogOf doc with
  | none => some ([], [])
  | some catalog =>
    match dictGet catalog bOutlines with
    | none => some ([], [])
    | some outlinesObj =>
      match resolveObject doc outlinesObj with
      | none => some ([], [])
      | some outlinesReal =>
        match asDictO outlinesReal with
        | none => some ([], [])
        | some outlines =>
          match dictGet outlines bFirst with
          | none => some ([], [])
          | some firstObj =>
            match asReferenceO firstObj with
            | none => some ([], [])
            | some firstRef => collectBookmarks doc pm nd fuel (some firstRef)

/-! ### Termination structure of the sibling loop -/

/-- One iteration of the sibling loop: fetch the node as a dictionary and
take its `Next` reference; `none` when the loop would stop (unfetchable or
non-dictionary node, or no usable `Next`). -/
def bmStep (doc : Document) (id : ObjectId) : Option ObjectId :=
  match getDict doc id with
  | none => none
  | some item => nextOf item

/-- The step function lifted to the loop state `current_id_opt`. -/
def bmStepO (doc : Document) : Option ObjectId → Option ObjectId
  | none => none
  | some id => bmStep doc id

/-- Iterating the sibling step. -/
def bmIter (doc : Document) : Nat → Option ObjectId → Option ObjectId
  | 0, s => s
  | n + 1, s => bmIter doc n (bmStepO doc s)

/-- The sibling loop started at `start` terminates: some number of steps
reaches the stopped state. -/
def bmLoopHalts (doc : Document) (start : ObjectId) : Prop :=
  ∃ n, bmIter doc n (some start) = none

/-- The name-tree recursion started at `id` completes for some fuel. -/
def ntCompletes (doc : Document) (id : ObjectId) : Prop :=
  ∃ fuel, (collectNameTree doc fuel id []).isSome = true

/-! ### Erasing `First` entries (to state that the walker never reads them) -/

/-- Remove the `First` entry of a dictionary object; leave all other
objects unchanged. -/
def eraseObj : Object → Object
  | .dict es => .dict (es.filter (fun e => !decide (e.1 = bFirst)))
  | o => o

/-- Remove the `First` entry of every stored dictionary object. -/
def eraseFirst (doc : Document) : Document :=
  ⟨doc.objects.map (fun e => (e.1, eraseObj e.2)), doc.trailer⟩

/-- The observations `resolve_dest` / `collectBookmarks` make of an object,
shared between an object and its `First`-erased version. -/
def ObsEq (a b : Object) : Prop :=
  asArrayO b = asArrayO a ∧
  destKeyOf b = destKeyOf a ∧
  asStrO b = asStrO a ∧
  asReferenceO b = asReferenceO a ∧
  (asDictO b).isSome = (asDictO a).isSome ∧
  (∀ ea eb k, asDictO a = some ea → asDictO b = some eb → k ≠ bFirst →
     dictGet eb k = dictGet ea k)

/-! ### Chapter-boundary computation (main.rs lines 155-212) -/

/-- A chapter range as produced by `main`'s split loop. -/
structure Chapter where
  start_page : Nat
  title : List Nat
  end_page : Nat
deriving DecidableEq

/-- Stable insertion of one element by page key: placed before the first
element with a key not below its own. -/
def insertByPage (x : Nat × List Nat) : List (Nat × List Nat) → List (Nat × List Nat)
  | [] => [x]
  | y :: ys => if x.1 ≤ y.1 then x :: y :: ys else y :: insertByPage x ys

/-- `chapter_starts.sort_by_key(|k| k.0)`: a stable sort by page. -/
def sortByPage : List (Nat × List Nat) → List (Nat × List Nat)
  | [] => []
  | x :: xs => insertByPage x (sortByPage xs)

/-- The scan of `Vec::dedup_by_key`: drop each element whose key equals the
key of the last kept element. -/
def dedupLoop (last : Nat × List Nat) : List (Nat × List Nat) → List (Nat × List Nat)
  | [] => []
  | y :: rest => if y.1 = last.1 then dedupLoop last rest else y :: dedupLoop y rest

/-- `chapter_starts.dedup_by_key(|k| k.0)`: keep the first element of each
run of consecutive equal keys. -/
def dedupByKey : List (Nat × List Nat) → List (Nat × List Nat)
  | [] => []
  | x :: rest => x :: dedupLoop x rest

/-- The end-page assignment and degenerate-range drop of `main`'s split
loop (lines 169-180): entry `i` ends one page before entry `i+1` when that
is no earlier than its own start, else at its own start; the last entry ends
at the total page count; an entry whose start exceeds its end is dropped. -/
def assignEnds (total : Nat) : List (Nat × List Nat) → List Chapter
  | [] => []
  | [x] => if x.1 > total then [] else [⟨x.1, x.2, total⟩]
  | x :: y :: rest =>
    (if x.1 > (if y.1 > x.1 then y.1 - 1 else x.1) then []
     else [⟨x.1, x.2, if y.1 > x.1 then y.1 - 1 else x.1⟩]) ++
    assignEnds total (y :: rest)

/-- The fallback of main.rs lines 155-158: an empty scan result is replaced
by the single synthetic entry (page 1, `"FullDocument"`). -/
def chapterRawInput (raw : List (Nat × List Nat)) : List (Nat × List Nat) :=
  if raw.isEmpty then [(1, fullDocumentTitle)] else raw

/-- The full chapter-boundary computation of `main` (lines 155-180):
fallback, stable sort by page, dedup by page, end assignment. -/
def computeChapters (raw : List (Nat × List Nat)) (total : Nat) : List Chapter :=
  assignEnds total (dedupByKey (sortByPage (chapterRawInput raw)))

/-- Whether some computed chapter range contains page `p`. -/
def coveredBy (cs : List Chapter) (p : Nat) : Bool :=
  cs.any (fun c => decide (c.start_page ≤ p ∧ p ≤ c.end_page))

/-! ### Name-tree reachability (for stating what full collection means) -/

/-- One step from a name-tree node to a child: the node's `Kids` entry
resolves to an array containing a `Reference` to the child. -/
inductive NTStep (doc : Document) : ObjectId → ObjectId → Prop where
  | step {id kid : ObjectId} {node : Dict} {kidsObj kidsReal : Object} {kids : List Object} :
      getDict doc id = some node →
      dictGet node bKids = some kidsObj →
      resolveObject doc kidsObj = some kidsReal →
      asArrayO kidsReal = some kids →
      Object.ref kid ∈ kids →
      NTStep doc id kid

/-- Reachability through `Kids` references. -/
def NTReach (doc : Document) : ObjectId → ObjectId → Prop :=
  Relation.ReflTransGen (NTStep doc)

/-- The `Names` array a node contributes (empty if any step of the
extraction fails), mirroring the extraction inside `collectNameTree`. -/
def ntNamesArr (doc : Document) (id : ObjectId) : List Object :=
  match getDict doc id with
  | none => []
  | some node =>
    match dictGet node bNames with
    | none => []
    | some namesObj =>
      match resolveObject doc namesObj with
      | none => []
      | some namesReal =>
        match asArrayO namesReal with
        | none => []
        | some names => names

/-- The keys contributed by a `Names` array read as (key, value) pairs. -/
def pairKeys : List Object → List (List Nat)
  | k :: _ :: rest =>
    (match k with
     | .string bs _ => [bs]
     | .name bs => [bs]
     | _ => []) ++ pairKeys rest
  | _ => []

/-- The `Names` array of a direct-dictionary `Dests` root (empty if any
step of the extraction fails). -/
def directRootNames (doc : Document) (destsDict : Dict) : List Object :=
  match dictGet destsDict bNames with
  | none => []
  | some namesArrObj =>
    match resolveObject doc namesArrObj with
    | none => []
    | some namesArrReal =>
      match asArrayO namesArrReal with
      | none => []
      | some names => names

/-- The keys of the catalog's legacy `Dests` dictionary. -/
def legacyKeys (doc : Document) (catalog : Dict) : List (List Nat) :=
  match dictGet catalog bDests with
  | none => []
  | some destsObj =>
    match resolveObject doc destsObj with
    | none => []
    | some destsReal =>
      match asDictO destsReal with
      | none => []
      | some entries => entries.map (fun e => e.1)

/-! ### Concrete documents used as counterexamples and witnesses -/

/-- A document whose single outline node points to a child via `First`
(page 1 at the top level, page 2 on the child): used to show the walker
never descends. -/
def docC1 : Document :=
  ⟨[((10, 0), .dict [(bTitle, .string [65] .literal),
                     (bDest, .array [.ref (100, 0)]),
                     (bFirst, .ref (11, 0))]),
    ((11, 0), .dict [(bTitle, .string [66] .literal),
                     (bDest, .array [.ref (101, 0)])])],
   []⟩

/-- Page map for `docC1`. -/
def pmC1 : PageMap := [((100, 0), 1), ((101, 0), 2)]

/-- A document with a self-referential `Next` chain (object 1) and a
self-referential name-tree `Kids` entry (object 2). -/
def cycDoc : Document :=
  ⟨[((1, 0), .dict [(bNext, .ref (1, 0))]),
    ((2, 0), .dict [(bKids, .array [.ref (2, 0)])])],
   []⟩

/-- A document whose catalog's Names→Dests entry is a direct dictionary
with a `Kids` array pointing at a leaf that holds a (key, value) pair. -/
def docC5 : Document :=
  ⟨[((1, 0), .dict [(bNames, .dict [(bDests, .dict [(bKids, .array [.ref (3, 0)])])])]),
    ((3, 0), .dict [(bNames, .array [.string [107] .literal, .integer 7])])],
   [(bRoot, .ref (1, 0))]⟩

/-- A document whose catalog's Names→Dests entry is a `Reference` to a
name-tree node holding a (key, value) pair. -/
def docC5ref : Document :=
  ⟨[((1, 0), .dict [(bNames, .dict [(bDests, .ref (2, 0))])]),
    ((2, 0), .dict [(bNames, .array [.string [107] .literal, .integer 7])])],
   [(bRoot, .ref (1, 0))]⟩

/-- A document whose name tree and legacy `Dests` dictionary both bind the
key `[107]` (to `Integer 1` and `Integer 2` respectively). -/
def docC6 : Document :=
  ⟨[((1, 0), .dict [(bNames, .dict [(bDests, .ref (2, 0))]),
                    (bDests, .dict [([107], .integer 2)])]),
    ((2, 0), .dict [(bNames, .array [.string [107] .literal, .integer 1])])],
   [(bRoot, .ref (1, 0))]⟩

/-- A document in which the named destination `[120]` resolves to a
dictionary whose `D` field is the name `[121]`, and `[121]` is itself a
named destination that would resolve to page 7. -/
def docC7 : Document :=
  ⟨[((5, 0), .dict [(bD, .name [121])])], []⟩

/-- Named-destination table for `docC7`. -/
def ndC7 : NamedDests := [([120], .ref (5, 0)), ([121], .array [.ref (200, 0)])]

/-- Page map for `docC7`. -/
def pmC7 : PageMap := [((200, 0), 7)]

/-- A document with a single outline node that has no `Title` entry but a
resolvable `Dest`. -/
def docC10 : Document :=
  ⟨[((20, 0), .dict [(bDest, .array [.ref (300, 0)])])], []⟩

/-- Page map for `docC10`. -/
def pmC10 : PageMap := [((300, 0), 4)]

/-! ## Theorems -/

/-! ### C3: the string decoder -/

/-- C3 (amended): the decoder is total; with the `FE FF` marker the
remainder is split into exact big-endian 16-bit pairs (a trailing odd byte
is dropped, it is not a decode failure) and decoded as UTF-16; only an
actual UTF-16 failure (an unpaired surrogate) falls back to a lossy UTF-8
decode of the entire original input; without the marker the whole input is
decoded as lossy UTF-8; `decode [0xFE,0xFF,0x00,0x41] = "A"`,
`decode [0x41,0x42] = "AB"`, and `decode [0xFE,0xFF,0x00]` is the empty
text, not the lossy decode of the raw bytes. -/
theorem decode_pdf_string_spec (bytes : List Nat) :
    (∀ rest s, bytes = 0xFE :: 0xFF :: rest →
        utf16Decode (bytesToU16BE rest) = some s → decode_pdf_string bytes = s) ∧
    (∀ rest, bytes = 0xFE :: 0xFF :: rest →
        utf16Decode (bytesToU16BE rest) = none →
        decode_pdf_string bytes = fromUtf8Lossy bytes) ∧
    ((∀ rest, bytes ≠ 0xFE :: 0xFF :: rest) → decode_pdf_string bytes = fromUtf8Lossy bytes) ∧
    decode_pdf_string [0xFE, 0xFF, 0x00, 0x41] = [0x41] ∧
    decode_pdf_string [0x41, 0x42] = [0x41, 0x42] ∧
    decode_pdf_string [0xFE, 0xFF, 0x00] = [] := by
  refine ⟨?_, ?_, ?_, rfl, rfl, rfl⟩
  · rintro rest s rfl h
    simp [decode_pdf_string, h]
  · rintro rest rfl h
    simp [decode_pdf_string, h]
  · intro hne
    cases bytes with
    | nil => rfl
    | cons b0 t =>
      cases t with
      | nil => rfl
      | cons b1 rest =>
        by_cases hc : b0 = 0xFE ∧ b1 = 0xFF
        · exact absurd (by rw [hc.1, hc.2]) (hne rest)
        · simp [decode_pdf_string, hc]

/-- Witness for `decode_pdf_string_spec`: at the concrete input
`[0xFE, 0xFF, 0xD8, 0x00]` (an unpaired high surrogate) the UTF-16 decode
fails and the fallback branch is taken. -/
theorem decode_pdf_string_spec_witness :
    decode_pdf_string [0xFE, 0xFF, 0xD8, 0x00] = fromUtf8Lossy [0xFE, 0xFF, 0xD8, 0x00] :=
  (decode_pdf_string_spec [0xFE, 0xFF, 0xD8, 0x00]).2.1 [0xD8, 0x00] rfl (by decide)

/-- C3 counterexample: on `[0xFE, 0xFF, 0x00]` the decoder returns the
empty text (the odd trailing byte is silently dropped by exact pairing),
not the lossy UTF-8 decode of the raw bytes that the claim requires. -/
theorem decode_pdf_string_odd_tail_cex :
    decode_pdf_string [0xFE, 0xFF, 0x00] = [] ∧
    fromUtf8Lossy [0xFE, 0xFF, 0x00] = [0xFFFD, 0xFFFD, 0] ∧
    decode_pdf_string [0xFE, 0xFF, 0x00] ≠ fromUtf8Lossy [0xFE, 0xFF, 0x00] := by
  refine ⟨rfl, rfl, ?_⟩
  decide

/-! ### C8: empty outline fallback -/

/-- C8: an empty raw (page, title) sequence yields exactly one chapter,
starting at page 1, ending at the document's total page count, with the
fixed fallback title; the absence of outline data is not an error. -/
theorem computeChapters_empty_fallback (total : Nat) (h : 1 ≤ total) :
    computeChapters [] total = [⟨1, fullDocumentTitle, total⟩] := by
  have hng : ¬ (1 > total) := by omega
  simp [computeChapters, chapterRawInput, sortByPage, insertByPage, dedupByKey,
    dedupLoop, assignEnds, hng]

/-- Witness for `computeChapters_empty_fallback` at total page count 5. -/
theorem computeChapters_empty_fallback_witness :
    computeChapters [] 5 = [⟨1, fullDocumentTitle, 5⟩] :=
  computeChapters_empty_fallback 5 (by decide)

/-! ### C10: missing or non-string titles -/

/-- C10: an outline node whose `Title` entry is absent or not a byte
string is not skipped for that reason: it is processed with the fallback
title `"No Title"` and, when its destination resolves to a page, its
(page, fallback-title) pair still heads the walker's output. -/
theorem bookmark_no_title_fallback
    (doc : Document) (pm : PageMap) (nd : NamedDests) (fuel : Nat) (id : ObjectId)
    (item : Dict) (p : Nat) (rs : List (Nat × List Nat)) (lg : List (List Nat))
    (hitem : getDict doc id = some item)
    (htitle : ∀ o, dictGet item bTitle = some o → asStrO o = none)
    (hpage : nodeTargetPage doc pm nd item = some p)
    (hcollect : collectBookmarks doc pm nd (fuel + 1) (some id) = some (rs, lg)) :
    titleOf item = noTitleTitle ∧ ∃ rest, rs = (p, noTitleTitle) :: rest := by
  have ht : titleOf item = noTitleTitle := by
    unfold titleOf
    cases hT : dictGet item bTitle with
    | none => rfl
    | some o =>
      show (match asStrO o with
            | some bs => decode_pdf_string bs
            | none => noTitleTitle) = noTitleTitle
      rw [htitle o hT]
  refine ⟨ht, ?_⟩
  cases hrec : collectBookmarks doc pm nd fuel (nextOf item) with
  | none =>
    simp only [collectBookmarks, hitem, hrec] at hcollect
    exact Option.noConfusion hcollect
  | some pr =>
    obtain ⟨rs0, lg0⟩ := pr
    simp only [collectBookmarks, hitem, hrec, hpage] at hcollect
    simp only [Option.some.injEq, Prod.mk.injEq] at hcollect
    exact ⟨rs0, by rw [← hcollect.1, ht]⟩

/-- Witness for `bookmark_no_title_fallback`: a concrete node with no
`Title` entry and a `Dest` resolving to page 4. -/
theorem bookmark_no_title_fallback_witness :
    titleOf [(bDest, Object.array [Object.ref (300, 0)])] = noTitleTitle ∧
    ∃ rest, [((4 : Nat), noTitleTitle)] = (4, noTitleTitle) :: rest :=
  bookmark_no_title_fallback docC10 pmC10 [] 0 (20, 0)
    [(bDest, Object.array [Object.ref (300, 0)])] 4 [(4, noTitleTitle)] []
    rfl
    (by
      intro o h
      rw [show dictGet [(bDest, Object.array [Object.ref (300, 0)])] bTitle = none from rfl] at h
      exact Option.noConfusion h)
    rfl rfl

/-! ### C7: one level of named-destination indirection -/

/-- If a value has a destination key it is a `String` or `Name`, hence not
an array. -/
theorem asArrayO_eq_none_of_destKeyOf {o : Object} {k : List Nat}
    (h : destKeyOf o = some k) : asArrayO o = none := by
  cases o <;> simp_all [destKeyOf, asArrayO]

/-- A value with a destination key yields no page under the array rule. -/
theorem arrayFirstPage_eq_none_of_destKeyOf (pm : PageMap) {o : Object} {k : List Nat}
    (h : destKeyOf o = some k) : arrayFirstPage pm o = none := by
  unfold arrayFirstPage
  rw [asArrayO_eq_none_of_destKeyOf h]

/-- C7: when a Name/ByteString destination hits the table and the stored
target resolves to a dictionary with a `D` field, the resolver resolves
that field exactly once and applies only the array rule to the result; in
particular a `D` that is itself a Name or ByteString produces no result
(no second table lookup is performed). -/
theorem resolve_dest_single_indirection
    (doc : Document) (pm : PageMap) (nd : NamedDests)
    (destObj realDest tgt : Object) (k : List Nat) (entries : Dict) (innerD : Object)
    (hres : resolveObject doc destObj = some realDest)
    (hkey : destKeyOf realDest = some k)
    (htgt : ndGet nd k = some tgt)
    (htres : resolveObject doc tgt = some (Object.dict entries))
    (hD : dictGet entries bD = some innerD) :
    resolve_dest doc destObj pm nd = (resolveObject doc innerD).bind (arrayFirstPage pm) ∧
    (∀ bs, (resolveObject doc innerD).bind destKeyOf = some bs →
      resolve_dest doc destObj pm nd = none) := by
  have h1 : resolve_dest doc destObj pm nd = (resolveObject doc innerD).bind (arrayFirstPage pm) := by
    simp only [resolve_dest, resolveTargetPage, hres, asArrayO_eq_none_of_destKeyOf hkey, hkey,
      htgt, htres, show asArrayO (Object.dict entries) = none from rfl,
      show asDictO (Object.dict entries) = some entries from rfl, hD]
    cases resolveObject doc innerD <;> rfl
  refine ⟨h1, fun bs hbs => ?_⟩
  rw [h1]
  cases hri : resolveObject doc innerD with
  | none => rfl
  | some o =>
    rw [hri] at hbs
    simp only [Option.some_bind] at hbs ⊢
    exact arrayFirstPage_eq_none_of_destKeyOf pm hbs

/-- Witness for `resolve_dest_single_indirection`: in `docC7` the key
`[120]` stores a dictionary whose `D` is the name `[121]`; even though
`[121]` is itself a named destination that would resolve to page 7, the
resolver returns no result. -/
theorem resolve_dest_single_indirection_witness :
    resolve_dest docC7 (Object.name [120]) pmC7 ndC7 = none ∧
    resolve_dest docC7 (Object.name [121]) pmC7 ndC7 = some 7 :=
  ⟨(resolve_dest_single_indirection docC7 pmC7 ndC7
      (Object.name [120]) (Object.name [120]) (Object.ref (5, 0)) [120]
      [(bD, Object.name [121])] (Object.name [121])
      rfl rfl rfl rfl rfl).2 [121] rfl,
   rfl⟩

/-! ### C6: legacy `Dests` entries override name-tree entries -/

/-- Inserting a binding makes its key resolve to its value. -/
theorem ndGet_insert_self (m : NamedDests) (k : List Nat) (v : Object) :
    ndGet (ndInsert m k v) k = some v := by
  simp [ndGet, ndInsert, List.find?]

/-- Inserting a binding for a different key leaves a lookup unchanged. -/
theorem ndGet_insert_ne (m : NamedDests) (k' k : List Nat) (v : Object) (h : k' ≠ k) :
    ndGet (ndInsert m k' v) k = ndGet m k := by
  simp [ndGet, ndInsert, List.find?, h]

/-- Inserting entries none of which bind `k` leaves the lookup of `k`
unchanged. -/
theorem ndGet_insertAll_not_mem :
    ∀ (entries : Dict) (m : NamedDests) (k : List Nat),
      k ∉ entries.map (fun e => e.1) →
      ndGet (insertAll m entries) k = ndGet m k
  | [], _, _, _ => rfl
  | (k', v') :: rest, m, k, h => by
    simp only [List.map_cons, List.mem_cons] at h
    push_neg at h
    rw [insertAll, ndGet_insertAll_not_mem rest _ k h.2,
      ndGet_insert_ne m k' k v' (fun he => h.1 he.symm)]

/-- Inserting the entries of a duplicate-free dictionary makes each of its
keys resolve to that dictionary's value, regardless of prior contents. -/
theorem ndGet_insertAll_of_lookup :
    ∀ (entries : Dict) (m : NamedDests) (k : List Nat) (v : Object),
      (entries.map (fun e => e.1)).Nodup →
      dictGet entries k = some v →
      ndGet (insertAll m entries) k = some v
  | [], _, k, v, _, hkv => by simp [dictGet] at hkv
  | (k', v') :: rest, m, k, v, hnodup, hkv => by
    simp only [List.map_cons, List.nodup_cons] at hnodup
    by_cases hk : k' = k
    · subst hk
      have hv : v' = v := by simpa [dictGet, List.find?] using hkv
      subst hv
      rw [insertAll, ndGet_insertAll_not_mem rest _ k' hnodup.1, ndGet_insert_self]
    · have hkv' : dictGet rest k = some v := by simpa [dictGet, List.find?, hk] using hkv
      rw [insertAll]
      exact ndGet_insertAll_of_lookup rest _ k v hnodup.2 hkv'

/-- C6: when a key occurs both in the name tree and in the catalog's
legacy `Dests` dictionary, the final table binds it to the legacy value,
because legacy entries are inserted after all name-tree entries and
insertion overwrites. -/
theorem legacy_dests_override
    (doc : Document) (fuel : Nat) (table : NamedDests) (catalog : Dict)
    (destsObj destsReal : Object) (entries : Dict) (k : List Nat) (v : Object)
    (hcat : catalogOf doc = some catalog)
    (hbuild : buildNamedDests doc fuel = some table)
    (hdests : dictGet catalog bDests = some destsObj)
    (hreal : resolveObject doc destsObj = some destsReal)
    (hdict : asDictO destsReal = some entries)
    (hnodup : (entries.map (fun e => e.1)).Nodup)
    (hkv : dictGet entries k = some v) :
    ndGet table k = some v := by
  unfold buildNamedDests at hbuild
  rw [hcat] at hbuild
  replace hbuild :
      (match nameTreeFromCatalog doc catalog fuel with
       | none => none
       | some m => some (legacyMerge doc catalog m)) = some table := hbuild
  cases hnt : nameTreeFromCatalog doc catalog fuel with
  | none => rw [hnt] at hbuild; cases hbuild
  | some m =>
    rw [hnt] at hbuild
    injection hbuild with hb
    subst hb
    simp only [legacyMerge, hdests, hreal, hdict]
    exact ndGet_insertAll_of_lookup entries m k v hnodup hkv

/-- Witness for `legacy_dests_override`: in `docC6` the key `[107]` is
bound to `Integer 1` by the name tree and to `Integer 2` by the legacy
dictionary; the table resolves it to `Integer 2`. -/
theorem legacy_dests_override_witness :
    ndGet [([107], Object.integer 2), ([107], Object.integer 1)] [107] =
      some (Object.integer 2) :=
  legacy_dests_override docC6 2
    [([107], Object.integer 2), ([107], Object.integer 1)]
    [(bNames, Object.dict [(bDests, Object.ref (2, 0))]),
     (bDests, Object.dict [([107], Object.integer 2)])]
    (Object.dict [([107], Object.integer 2)])
    (Object.dict [([107], Object.integer 2)])
    [([107], Object.integer 2)] [107] (Object.integer 2)
    rfl rfl rfl rfl rfl (by decide) rfl

/-! ### C4: termination of the traversals -/

/-- On `cycDoc` the sibling step is the constant `some (1, 0)`. -/
theorem cycDoc_bmIter_const : ∀ n, bmIter cycDoc n (some (1, 0)) = some (1, 0)
  | 0 => rfl
  | n + 1 => by
    show bmIter cycDoc n (bmStepO cycDoc (some (1, 0))) = some (1, 0)
    exact cycDoc_bmIter_const n

/-- On `cycDoc` the name-tree recursion exhausts any fuel. -/
theorem cycDoc_collectNameTree_none :
    ∀ (fuel : Nat) (m : NamedDests), collectNameTree cycDoc fuel (2, 0) m = none
  | 0, _ => rfl
  | fuel + 1, m => by
    show collectNameTree cycDoc fuel (2, 0) m = none
    exact cycDoc_collectNameTree_none fuel m

/-- C4 counterexample: on a document with a self-referential `Next` chain
the sibling loop never reaches its stop state, and with a self-referential
`Kids` entry the name-tree recursion completes under no fuel — the code
carries no visited-id set and no depth or step ceiling. -/
theorem traversals_cycle_nontermination_cex :
    ¬ bmLoopHalts cycDoc (1, 0) ∧ ¬ ntCompletes cycDoc (2, 0) := by
  constructor
  · rintro ⟨n, hn⟩
    rw [cycDoc_bmIter_const n] at hn
    cases hn
  · rintro ⟨fuel, hf⟩
    rw [cycDoc_collectNameTree_none fuel []] at hf
    simp at hf

/-- If iterating the sibling step from `s` stops within `n` steps, the
fueled walker completes with any fuel of at least `n`. -/
theorem collectBookmarks_some_of_iter :
    ∀ (n : Nat) (doc : Document) (pm : PageMap) (nd : NamedDests) (s : Option ObjectId),
      bmIter doc n s = none → ∀ fuel, n ≤ fuel →
      (collectBookmarks doc pm nd fuel s).isSome = true
  | 0, doc, pm, nd, s, h, fuel, _ => by
    replace h : s = none := h
    subst h
    cases fuel <;> rfl
  | n + 1, doc, pm, nd, s, h, fuel, hle => by
    cases s with
    | none => cases fuel <;> rfl
    | some id =>
      cases fuel with
      | zero => omega
      | succ f =>
        have hf : n ≤ f := by omega
        cases hd : getDict doc id with
        | none => simp [collectBookmarks, hd]
        | some item =>
          replace h : bmIter doc n (bmStepO doc (some id)) = none := h
          have hstep : bmStepO doc (some id) = nextOf item := by
            simp [bmStepO, bmStep, hd]
          rw [hstep] at h
          have hrec := collectBookmarks_some_of_iter n doc pm nd (nextOf item) h f hf
          simp only [collectBookmarks, hd]
          cases hr : collectBookmarks doc pm nd f (nextOf item) with
          | none => rw [hr] at hrec; simp at hrec
          | some pr =>
            obtain ⟨rs, lg⟩ := pr
            cases hp : nodeTargetPage doc pm nd item <;> simp

/-- If the fueled walker completes, iterating the sibling step stops. -/
theorem iter_none_of_collectBookmarks_some :
    ∀ (fuel : Nat) (doc : Document) (pm : PageMap) (nd : NamedDests) (s : Option ObjectId),
      (collectBookmarks doc pm nd fuel s).isSome = true → ∃ n, bmIter doc n s = none
  | _, _, _, _, none, _ => ⟨0, rfl⟩
  | 0, doc, pm, nd, some id, h => by
    simp [collectBookmarks] at h
  | fuel + 1, doc, pm, nd, some id, h => by
    cases hd : getDict doc id with
    | none =>
      refine ⟨1, ?_⟩
      show bmStepO doc (some id) = none
      simp [bmStepO, bmStep, hd]
    | some item =>
      simp only [collectBookmarks, hd] at h
      cases hr : collectBookmarks doc pm nd fuel (nextOf item) with
      | none => rw [hr] at h; simp at h
      | some pr =>
        obtain ⟨n, hn⟩ :=
          iter_none_of_collectBookmarks_some fuel doc pm nd (nextOf item) (by rw [hr]; rfl)
        refine ⟨n + 1, ?_⟩
        show bmIter doc n (bmStepO doc (some id)) = none
        have hstep : bmStepO doc (some id) = nextOf item := by
          simp [bmStepO, bmStep, hd]
        rw [hstep]
        exact hn

/-- C4 (amended): the traversals carry no visited set or ceiling; the
sibling walker completes (for some fuel) exactly when iterating its `Next`
step function from the start node reaches the stop state — so it
terminates precisely on chains that reach a node with no usable `Next` or
an unfetchable node, and (per the counterexample) loops forever on a
cyclic chain. -/
theorem collectBookmarks_halts_iff (doc : Document) (pm : PageMap) (nd : NamedDests)
    (start : ObjectId) :
    bmLoopHalts doc start ↔
      ∃ fuel, (collectBookmarks doc pm nd fuel (some start)).isSome = true := by
  unfold bmLoopHalts
  constructor
  · rintro ⟨n, hn⟩
    exact ⟨n, collectBookmarks_some_of_iter n doc pm nd (some start) hn n le_rfl⟩
  · rintro ⟨fuel, hf⟩
    exact iter_none_of_collectBookmarks_some fuel doc pm nd (some start) hf

/-! ### C1: the walker stays on the top-level sibling chain -/

/-- C1 counterexample: in `docC1` the start node has a `First` child whose
destination resolves to page 2, yet the walker's output is exactly the
top-level pair for page 1 — the child's (page, title) pair is absent. -/
theorem collectBookmarks_skips_children_cex :
    collectBookmarks docC1 pmC1 [] 5 (some (10, 0)) = some ([(1, [65])], []) ∧
    getObject docC1 (11, 0) =
      some (.dict [(bTitle, .string [66] .literal), (bDest, .array [.ref (101, 0)])]) ∧
    resolve_dest docC1 (Object.array [.ref (101, 0)]) pmC1 [] = some 2 ∧
    ((2 : Nat), ([66] : List Nat)) ∉ [((1 : Nat), ([65] : List Nat))] :=
  ⟨rfl, rfl, rfl, by decide⟩

/-- `ObsEq` is reflexive. -/
theorem obsEq_refl (a : Object) : ObsEq a a :=
  ⟨rfl, rfl, rfl, rfl, rfl, by
    intro ea eb k h1 h2 _
    rw [h1] at h2
    injection h2 with h
    rw [h]⟩

/-- A dictionary lookup hitting the head entry. -/
theorem dictGet_cons_eq (e : List Nat × Object) (rest : Dict) (k : List Nat)
    (h : e.1 = k) : dictGet (e :: rest) k = some e.2 := by
  unfold dictGet
  rw [List.find?_cons_of_pos rest (by simp [h])]
  rfl

/-- A dictionary lookup skipping the head entry. -/
theorem dictGet_cons_ne (e : List Nat × Object) (rest : Dict) (k : List Nat)
    (h : ¬ e.1 = k) : dictGet (e :: rest) k = dictGet rest k := by
  unfold dictGet
  rw [List.find?_cons_of_neg rest (by simp [h])]

/-- Filtering out the `First` entry leaves every other lookup unchanged. -/
theorem dictGet_filterFirst :
    ∀ (es : Dict) (k : List Nat), k ≠ bFirst →
      dictGet (es.filter (fun e => !decide (e.1 = bFirst))) k = dictGet es k
  | [], _, _ => rfl
  | e :: rest, k, hk => by
    by_cases he : e.1 = bFirst
    · have hek : ¬ (e.1 = k) := fun h => hk (h ▸ he)
      rw [List.filter_cons, if_neg (by simp [he]), dictGet_filterFirst rest k hk,
        dictGet_cons_ne e rest k hek]
    · by_cases hek : e.1 = k
      · rw [List.filter_cons, if_pos (by simp [he]), dictGet_cons_eq e _ k hek,
          dictGet_cons_eq e rest k hek]
      · rw [List.filter_cons, if_pos (by simp [he]), dictGet_cons_ne e _ k hek,
          dictGet_cons_ne e rest k hek, dictGet_filterFirst rest k hk]

/-- Every object is observed identically to its `First`-erased version. -/
theorem eraseObj_obsEq (o : Object) : ObsEq o (eraseObj o) := by
  cases o with
  | dict es =>
    refine ⟨rfl, rfl, rfl, rfl, rfl, ?_⟩
    intro ea eb k hea heb hk
    injection hea with hea
    injection heb with heb
    rw [← hea, ← heb]
    exact dictGet_filterFirst es k hk
  | null => exact obsEq_refl _
  | boolean b => exact obsEq_refl _
  | integer i => exact obsEq_refl _
  | real => exact obsEq_refl _
  | string bs fmt => exact obsEq_refl _
  | name bs => exact obsEq_refl _
  | array es => exact obsEq_refl _
  | stream d => exact obsEq_refl _
  | ref id => exact obsEq_refl _

/-- Looking up in the `First`-erased store yields the erased object. -/
theorem getObject_eraseFirst (doc : Document) (id : ObjectId) :
    getObject (eraseFirst doc) id = (getObject doc id).map eraseObj := by
  show ((doc.objects.map (fun e => (e.1, eraseObj e.2))).find?
      (fun e => decide (e.1 = id))).map (fun e => e.2) =
    ((doc.objects.find? (fun e => decide (e.1 = id))).map (fun e => e.2)).map eraseObj
  rw [List.find?_map]
  rw [show ((fun e : ObjectId × Object => decide (e.1 = id)) ∘
      (fun e : ObjectId × Object => (e.1, eraseObj e.2))) =
    (fun e : ObjectId × Object => decide (e.1 = id)) from rfl]
  cases doc.objects.find? (fun e : ObjectId × Object => decide (e.1 = id)) <;> rfl

/-- `resolveObject` on the `First`-erased document: either both fail, or
the two results are observationally equal. -/
theorem resolveObject_eraseFirst (doc : Document) (obj : Object) :
    (resolveObject (eraseFirst doc) obj = none ∧ resolveObject doc obj = none) ∨
    (∃ a b, resolveObject doc obj = some a ∧ resolveObject (eraseFirst doc) obj = some b ∧
      ObsEq a b) := by
  cases obj with
  | ref id =>
    rw [show resolveObject (eraseFirst doc) (.ref id) = getObject (eraseFirst doc) id from rfl,
      show resolveObject doc (.ref id) = getObject doc id from rfl,
      getObject_eraseFirst]
    cases getObject doc id with
    | none => exact Or.inl ⟨rfl, rfl⟩
    | some a => exact Or.inr ⟨a, eraseObj a, rfl, rfl, eraseObj_obsEq a⟩
  | null => exact Or.inr ⟨_, _, rfl, rfl, obsEq_refl _⟩
  | boolean b => exact Or.inr ⟨_, _, rfl, rfl, obsEq_refl _⟩
  | integer i => exact Or.inr ⟨_, _, rfl, rfl, obsEq_refl _⟩
  | real => exact Or.inr ⟨_, _, rfl, rfl, obsEq_refl _⟩
  | string bs fmt => exact Or.inr ⟨_, _, rfl, rfl, obsEq_refl _⟩
  | name bs => exact Or.inr ⟨_, _, rfl, rfl, obsEq_refl _⟩
  | array es => exact Or.inr ⟨_, _, rfl, rfl, obsEq_refl _⟩
  | dict es => exact Or.inr ⟨_, _, rfl, rfl, obsEq_refl _⟩
  | stream d => exact Or.inr ⟨_, _, rfl, rfl, obsEq_refl _⟩

/-- The array rule only observes `asArrayO`, so it respects `ObsEq`. -/
theorem arrayFirstPage_obsEq (pm : PageMap) {a b : Object} (h : ObsEq a b) :
    arrayFirstPage pm b = arrayFirstPage pm a := by
  unfold arrayFirstPage
  rw [h.1]

/-- The stored-target resolution never reads a `First` entry. -/
theorem resolveTargetPage_eraseFirst (doc : Document) (pm : PageMap) (tgt : Object) :
    resolveTargetPage (eraseFirst doc) pm tgt = resolveTargetPage doc pm tgt := by
  unfold resolveTargetPage
  rcases resolveObject_eraseFirst doc tgt with ⟨g1, g2⟩ | ⟨c, d, hc, hd, hob⟩
  · rw [g1, g2]
  · rw [hc, hd]
    simp only [hob.1]
    cases harr : asArrayO c with
    | some arr => exact arrayFirstPage_obsEq pm hob
    | none =>
      cases hdc : asDictO c with
      | none =>
        have hdd : asDictO d = none := by
          cases hdd : asDictO d with
          | none => rfl
          | some ed =>
            exfalso
            have hiso := hob.2.2.2.2.1
            rw [hdc, hdd] at hiso
            simp at hiso
        rw [hdd]
      | some ec =>
        have hsome : (asDictO d).isSome = true := by
          rw [hob.2.2.2.2.1, hdc]; rfl
        obtain ⟨ed, hed⟩ := Option.isSome_iff_exists.mp hsome
        rw [hed]
        show (match dictGet ed bD with
              | none => none
              | some innerD =>
                match resolveObject (eraseFirst doc) innerD with
                | none => none
                | some innerReal => arrayFirstPage pm innerReal) =
          (match dictGet ec bD with
           | none => none
           | some innerD =>
             match resolveObject doc innerD with
             | none => none
             | some innerReal => arrayFirstPage pm innerReal)
        rw [hob.2.2.2.2.2 ec ed bD hdc hed (by decide)]
        cases dictGet ec bD with
        | none => rfl
        | some innerD =>
          show (match resolveObject (eraseFirst doc) innerD with
                | none => none
                | some innerReal => arrayFirstPage pm innerReal) =
            (match resolveObject doc innerD with
             | none => none
             | some innerReal => arrayFirstPage pm innerReal)
          rcases resolveObject_eraseFirst doc innerD with ⟨f1, f2⟩ | ⟨e, f, he, hf, hob3⟩
          · rw [f1, f2]
          · rw [he, hf]
            exact arrayFirstPage_obsEq pm hob3

/-- `resolve_dest` never reads a `First` entry. -/
theorem resolve_dest_eraseFirst (doc : Document) (pm : PageMap) (nd : NamedDests)
    (destObj : Object) :
    resolve_dest (eraseFirst doc) destObj pm nd = resolve_dest doc destObj pm nd := by
  unfold resolve_dest
  rcases resolveObject_eraseFirst doc destObj with ⟨h1, h2⟩ | ⟨a, b, ha, hb, hob⟩
  · rw [h1, h2]
  · rw [ha, hb]
    simp only [hob.1, hob.2.1]
    cases harr : asArrayO a with
    | some arr => exact arrayFirstPage_obsEq pm hob
    | none =>
      show (match destKeyOf a with
            | none => none
            | some k =>
              match ndGet nd k with
              | none => none
              | some tgt => resolveTargetPage (eraseFirst doc) pm tgt) =
        (match destKeyOf a with
         | none => none
         | some k =>
           match ndGet nd k with
           | none => none
           | some tgt => resolveTargetPage doc pm tgt)
      cases destKeyOf a with
      | none => rfl
      | some k =>
        show (match ndGet nd k with
              | none => none
              | some tgt => resolveTargetPage (eraseFirst doc) pm tgt) =
          (match ndGet nd k with
           | none => none
           | some tgt => resolveTargetPage doc pm tgt)
        cases ndGet nd k with
        | none => rfl
        | some tgt => exact resolveTargetPage_eraseFirst doc pm tgt

/-- The `GoTo`-action fallback never reads a `First` entry. -/
theorem actionTargetPage_eraseFirst (doc : Document) (pm : PageMap) (nd : NamedDests)
    (actionObj : Object) :
    actionTargetPage (eraseFirst doc) pm nd actionObj =
      actionTargetPage doc pm nd actionObj := by
  unfold actionTargetPage
  rcases resolveObject_eraseFirst doc actionObj with ⟨h1, h2⟩ | ⟨a, b, hra, hrb, hob⟩
  · rw [h1, h2]
  · rw [hra, hrb]
    show (match asDictO b with
          | none => none
          | some action =>
            if (match dictGet action bS with
                | some (.name bs) => decide (bs = bGoTo)
                | some _ => false
                | none => false) = true then
              match dictGet action bD with
              | some d => resolve_dest (eraseFirst doc) d pm nd
              | none => none
            else none) =
      (match asDictO a with
       | none => none
       | some action =>
         if (match dictGet action bS with
             | some (.name bs) => decide (bs = bGoTo)
             | some _ => false
             | none => false) = true then
           match dictGet action bD with
           | some d => resolve_dest doc d pm nd
           | none => none
         else none)
    cases hdc : asDictO a with
    | none =>
      have hdd : asDictO b = none := by
        cases hdd : asDictO b with
        | none => rfl
        | some eb =>
          exfalso
          have hiso := hob.2.2.2.2.1
          rw [hdc, hdd] at hiso
          simp at hiso
      rw [hdd]
    | some ea =>
      have hsome : (asDictO b).isSome = true := by
        rw [hob.2.2.2.2.1, hdc]; rfl
      obtain ⟨eb, heb⟩ := Option.isSome_iff_exists.mp hsome
      rw [heb]
      show (if (match dictGet eb bS with
                | some (.name bs) => decide (bs = bGoTo)
                | some _ => false
                | none => false) = true then
              match dictGet eb bD with
              | some d => resolve_dest (eraseFirst doc) d pm nd
              | none => none
            else none) =
          (if (match dictGet ea bS with
               | some (.name bs) => decide (bs = bGoTo)
               | some _ => false
               | none => false) = true then
             match dictGet ea bD with
             | some d => resolve_dest doc d pm nd
             | none => none
           else none)
      rw [hob.2.2.2.2.2 ea eb bS hdc heb (by decide),
        hob.2.2.2.2.2 ea eb bD hdc heb (by decide)]
      by_cases hg : (match dictGet ea bS with
          | some (.name bs) => decide (bs = bGoTo)
          | some _ => false
          | none => false) = true
      · rw [if_pos hg, if_pos hg]
        cases dictGet ea bD with
        | none => rfl
        | some d => exact resolve_dest_eraseFirst doc pm nd d
      · rw [if_neg hg, if_neg hg]

/-- The per-node target-page computation never reads a `First` entry. -/
theorem nodeTargetPage_eraseFirst (doc : Document) (pm : PageMap) (nd : NamedDests)
    (item : Dict) :
    nodeTargetPage (eraseFirst doc) pm nd (item.filter (fun e => !decide (e.1 = bFirst))) =
      nodeTargetPage doc pm nd item := by
  unfold nodeTargetPage
  have hfd : (match dictGet item bDest with
              | some d => resolve_dest (eraseFirst doc) d pm nd
              | none => none) =
      (match dictGet item bDest with
       | some d => resolve_dest doc d pm nd
       | none => none) := by
    cases dictGet item bDest with
    | none => rfl
    | some d => exact resolve_dest_eraseFirst doc pm nd d
  rw [dictGet_filterFirst item bDest (by decide), hfd,
    dictGet_filterFirst item bA (by decide)]
  cases (match dictGet item bDest with
         | some d => resolve_dest doc d pm nd
         | none => none) with
  | some p => rfl
  | none =>
    cases dictGet item bA with
    | none => rfl
    | some actionObj => exact actionTargetPage_eraseFirst doc pm nd actionObj

/-- The node title never reads a `First` entry. -/
theorem titleOf_filterFirst (item : Dict) :
    titleOf (item.filter (fun e => !decide (e.1 = bFirst))) = titleOf item := by
  unfold titleOf
  rw [dictGet_filterFirst item bTitle (by decide)]

/-- The `Next` reference never reads a `First` entry. -/
theorem nextOf_filterFirst (item : Dict) :
    nextOf (item.filter (fun e => !decide (e.1 = bFirst))) = nextOf item := by
  unfold nextOf
  rw [dictGet_filterFirst item bNext (by decide)]

/-- `getDict` on the `First`-erased document. -/
theorem getDict_eraseFirst (doc : Document) (id : ObjectId) :
    getDict (eraseFirst doc) id =
      (getDict doc id).map (fun es => es.filter (fun e => !decide (e.1 = bFirst))) := by
  unfold getDict
  rw [getObject_eraseFirst]
  cases getObject doc id with
  | none => rfl
  | some o => cases o <;> rfl

/-- Worker for the `First`-invariance of the walker. -/
theorem collectBookmarks_ignores_first_aux :
    ∀ (fuel : Nat) (doc : Document) (pm : PageMap) (nd : NamedDests) (s : Option ObjectId),
      collectBookmarks (eraseFirst doc) pm nd fuel s = collectBookmarks doc pm nd fuel s
  | fuel, doc, _, _, none => by cases fuel <;> rfl
  | 0, _, _, _, some _ => rfl
  | fuel + 1, doc, pm, nd, some id => by
    cases hd : getDict doc id with
    | none =>
      have hd' : getDict (eraseFirst doc) id = none := by
        rw [getDict_eraseFirst, hd]; rfl
      simp only [collectBookmarks, hd, hd']
    | some item =>
      have hd' : getDict (eraseFirst doc) id =
          some (item.filter (fun e => !decide (e.1 = bFirst))) := by
        rw [getDict_eraseFirst, hd]; rfl
      simp only [collectBookmarks, hd, hd', titleOf_filterFirst, nextOf_filterFirst,
        nodeTargetPage_eraseFirst,
        collectBookmarks_ignores_first_aux fuel doc pm nd (nextOf item)]

/-- C1 (amended): the walker never consults `First` — removing every
node's `First` entry from the document leaves its entire output (both the
(page, title) pairs and the skip log) unchanged for every start state and
every fuel; it emits pairs only along the `Next` sibling chain from its
start node, so nested bookmarks are not visited. -/
theorem collectBookmarks_ignores_first (doc : Document) (pm : PageMap) (nd : NamedDests)
    (fuel : Nat) (s : Option ObjectId) :
    collectBookmarks (eraseFirst doc) pm nd fuel s = collectBookmarks doc pm nd fuel s :=
  collectBookmarks_ignores_first_aux fuel doc pm nd s

/-! ### C2 and C9: the chapter-boundary computation -/

/-- Membership in a stable insertion. -/
theorem mem_insertByPage :
    ∀ (x z : Nat × List Nat) (s : List (Nat × List Nat)),
      z ∈ insertByPage x s ↔ z = x ∨ z ∈ s
  | x, z, [] => by simp [insertByPage]
  | x, z, y :: ys => by
    unfold insertByPage
    by_cases h : x.1 ≤ y.1
    · rw [if_pos h]
      simp
    · rw [if_neg h]
      simp only [List.mem_cons, mem_insertByPage x z ys]
      tauto

/-- Stable insertion preserves sortedness by page. -/
theorem pairwise_insertByPage :
    ∀ (x : Nat × List Nat) (s : List (Nat × List Nat)),
      List.Pairwise (fun a b => a.1 ≤ b.1) s →
      List.Pairwise (fun a b => a.1 ≤ b.1) (insertByPage x s)
  | x, [], _ => by simp [insertByPage]
  | x, y :: ys, h => by
    unfold insertByPage
    rw [List.pairwise_cons] at h
    by_cases hle : x.1 ≤ y.1
    · rw [if_pos hle]
      refine List.Pairwise.cons ?_ (List.Pairwise.cons h.1 h.2)
      intro z hz
      rcases List.mem_cons.mp hz with rfl | hz
      · exact hle
      · exact hle.trans (h.1 z hz)
    · rw [if_neg hle]
      refine List.Pairwise.cons ?_ (pairwise_insertByPage x ys h.2)
      intro z hz
      rcases (mem_insertByPage x z ys).mp hz with rfl | hz
      · omega
      · exact h.1 z hz

/-- The stable sort sorts by page. -/
theorem pairwise_sortByPage :
    ∀ (l : List (Nat × List Nat)), List.Pairwise (fun a b => a.1 ≤ b.1) (sortByPage l)
  | [] => List.Pairwise.nil
  | x :: xs => pairwise_insertByPage x (sortByPage xs) (pairwise_sortByPage xs)

/-- After deduplication of a sorted list, adjacent pages are strictly
increasing. -/
theorem chain_lt_dedupLoop :
    ∀ (l : List (Nat × List Nat)) (last : Nat × List Nat),
      List.Chain' (fun a b => a.1 ≤ b.1) (last :: l) →
      List.Chain' (fun a b => a.1 < b.1) (last :: dedupLoop last l)
  | [], _, _ => by simp [dedupLoop]
  | y :: rest, last, h => by
    have h1 : last.1 ≤ y.1 := (List.chain'_cons.mp h).1
    have h2 : List.Chain' (fun a b => a.1 ≤ b.1) (y :: rest) := (List.chain'_cons.mp h).2
    show List.Chain' (fun a b => a.1 < b.1)
      (last :: if y.1 = last.1 then dedupLoop last rest else y :: dedupLoop y rest)
    by_cases he : y.1 = last.1
    · rw [if_pos he]
      apply chain_lt_dedupLoop rest last
      cases rest with
      | nil => simp
      | cons z zs =>
        have h3 := List.chain'_cons.mp h2
        refine List.chain'_cons.mpr ⟨?_, h3.2⟩
        have h4 := h3.1
        omega
    · rw [if_neg he]
      exact List.chain'_cons.mpr ⟨by omega, chain_lt_dedupLoop rest y h2⟩

/-- Dedup of a sorted list has strictly increasing pages (adjacent). -/
theorem chain_lt_dedupByKey (l : List (Nat × List Nat))
    (h : List.Pairwise (fun a b => a.1 ≤ b.1) l) :
    List.Chain' (fun a b => a.1 < b.1) (dedupByKey l) := by
  cases l with
  | nil => simp [dedupByKey]
  | cons x rest =>
    show List.Chain' (fun a b => a.1 < b.1) (x :: dedupLoop x rest)
    exact chain_lt_dedupLoop rest x (List.Pairwise.chain' h)

/-- A chain for a transitive relation is pairwise. -/
theorem pairwise_of_chain_trans {α : Type} {R : α → α → Prop}
    (htrans : ∀ a b c, R a b → R b c → R a c) :
    ∀ l : List α, List.Chain' R l → List.Pairwise R l
  | [], _ => List.Pairwise.nil
  | [x], _ => by simp
  | x :: y :: rest, h => by
    have h1 := (List.chain'_cons.mp h).1
    have h2 := (List.chain'_cons.mp h).2
    have ih := pairwise_of_chain_trans htrans (y :: rest) h2
    refine List.Pairwise.cons ?_ ih
    intro z hz
    rcases List.mem_cons.mp hz with rfl | hz
    · exact h1
    · exact htrans _ _ _ h1 ((List.pairwise_cons.mp ih).1 z hz)

/-- Every emitted chapter's (start, title) pair comes from the input. -/
theorem assignEnds_mem :
    ∀ (total : Nat) (l : List (Nat × List Nat)) (c : Chapter),
      c ∈ assignEnds total l → (c.start_page, c.title) ∈ l
  | _, [], c, h => by simp [assignEnds] at h
  | total, [x], c, h => by
    unfold assignEnds at h
    by_cases hx : x.1 > total
    · rw [if_pos hx] at h
      simp at h
    · rw [if_neg hx] at h
      simp at h
      subst h
      simp
  | total, x :: y :: rest, c, h => by
    unfold assignEnds at h
    rcases List.mem_append.mp h with h1 | h2
    · by_cases hc : x.1 > (if y.1 > x.1 then y.1 - 1 else x.1)
      · rw [if_pos hc] at h1
        simp at h1
      · rw [if_neg hc] at h1
        simp at h1
        subst h1
        simp
    · have hm := assignEnds_mem total (y :: rest) c h2
      exact List.mem_cons_of_mem x hm

/-- Every emitted chapter has `end_page ≥ start_page`. -/
theorem assignEnds_le :
    ∀ (total : Nat) (l : List (Nat × List Nat)) (c : Chapter),
      c ∈ assignEnds total l → c.start_page ≤ c.end_page
  | _, [], c, h => by simp [assignEnds] at h
  | total, [x], c, h => by
    unfold assignEnds at h
    by_cases hx : x.1 > total
    · rw [if_pos hx] at h
      simp at h
    · rw [if_neg hx] at h
      simp at h
      subst h
      simp
      omega
  | total, x :: y :: rest, c, h => by
    unfold assignEnds at h
    rcases List.mem_append.mp h with h1 | h2
    · by_cases hc : x.1 > (if y.1 > x.1 then y.1 - 1 else x.1)
      · rw [if_pos hc] at h1
        simp at h1
      · rw [if_neg hc] at h1
        simp at h1
        subst h1
        simp only [gt_iff_lt]
        split <;> omega
    · exact assignEnds_le total (y :: rest) c h2

/-- Emitted chapters are strictly ascending by start page when the input
pages are strictly increasing. -/
theorem assignEnds_start_lt :
    ∀ (total : Nat) (l : List (Nat × List Nat)),
      List.Pairwise (fun a b => a.1 < b.1) l →
      List.Pairwise (fun c d => c.start_page < d.start_page) (assignEnds total l)
  | _, [], _ => by simp [assignEnds]
  | total, [x], _ => by
    unfold assignEnds
    by_cases hx : x.1 > total
    · rw [if_pos hx]
      exact List.Pairwise.nil
    · rw [if_neg hx]
      simp
  | total, x :: y :: rest, h => by
    unfold assignEnds
    have hxy := (List.pairwise_cons.mp h).1
    have htail := (List.pairwise_cons.mp h).2
    have ih := assignEnds_start_lt total (y :: rest) htail
    by_cases hc : x.1 > (if y.1 > x.1 then y.1 - 1 else x.1)
    · rw [if_pos hc]
      simpa using ih
    · rw [if_neg hc]
      simp only [List.singleton_append]
      refine List.Pairwise.cons ?_ ih
      intro d hd
      exact hxy _ (assignEnds_mem total (y :: rest) d hd)

/-- Stable-sort stability, hit case: inserting the matching element makes
it the first hit (everything it skips has a smaller page). -/
theorem find?_insertByPage_eq :
    ∀ (x : Nat × List Nat) (s : List (Nat × List Nat)) (k : Nat), x.1 = k →
      (insertByPage x s).find? (fun e => decide (e.1 = k)) = some x
  | x, [], k, hx => by simp [insertByPage, List.find?, hx]
  | x, y :: ys, k, hx => by
    unfold insertByPage
    by_cases h : x.1 ≤ y.1
    · rw [if_pos h, List.find?_cons_of_pos _ (by simp [hx])]
    · rw [if_neg h]
      have hyk : ¬ (y.1 = k) := by omega
      rw [List.find?_cons_of_neg _ (by simp [hyk])]
      exact find?_insertByPage_eq x ys k hx

/-- Stable-sort stability, miss case. -/
theorem find?_insertByPage_ne :
    ∀ (x : Nat × List Nat) (s : List (Nat × List Nat)) (k : Nat), ¬ (x.1 = k) →
      (insertByPage x s).find? (fun e => decide (e.1 = k)) =
        s.find? (fun e => decide (e.1 = k))
  | x, [], k, hx => by simp [insertByPage, List.find?, hx]
  | x, y :: ys, k, hx => by
    unfold insertByPage
    by_cases h : x.1 ≤ y.1
    · rw [if_pos h, List.find?_cons_of_neg _ (by simp [hx])]
    · rw [if_neg h]
      by_cases hy : y.1 = k
      · rw [List.find?_cons_of_pos _ (by simp [hy]), List.find?_cons_of_pos _ (by simp [hy])]
      · rw [List.find?_cons_of_neg _ (by simp [hy]), List.find?_cons_of_neg _ (by simp [hy])]
        exact find?_insertByPage_ne x ys k hx

/-- Stability of the sort: the first element with a given page is
preserved. -/
theorem find?_sortByPage :
    ∀ (l : List (Nat × List Nat)) (k : Nat),
      (sortByPage l).find? (fun e => decide (e.1 = k)) = l.find? (fun e => decide (e.1 = k))
  | [], _ => rfl
  | x :: xs, k => by
    show (insertByPage x (sortByPage xs)).find? (fun e => decide (e.1 = k)) =
      (x :: xs).find? (fun e => decide (e.1 = k))
    by_cases hx : x.1 = k
    · rw [find?_insertByPage_eq x (sortByPage xs) k hx,
        List.find?_cons_of_pos _ (by simp [hx])]
    · rw [find?_insertByPage_ne x (sortByPage xs) k hx,
        List.find?_cons_of_neg _ (by simp [hx]), find?_sortByPage xs k]

/-- Dedup never removes the first element with a given page. -/
theorem find?_dedupLoop :
    ∀ (l : List (Nat × List Nat)) (last : Nat × List Nat) (k : Nat),
      (last :: dedupLoop last l).find? (fun e => decide (e.1 = k)) =
        (last :: l).find? (fun e => decide (e.1 = k))
  | [], _, _ => by simp [dedupLoop]
  | y :: rest, last, k => by
    show (last :: if y.1 = last.1 then dedupLoop last rest else y :: dedupLoop y rest).find?
        (fun e => decide (e.1 = k)) =
      (last :: y :: rest).find? (fun e => decide (e.1 = k))
    by_cases he : y.1 = last.1
    · rw [if_pos he]
      by_cases hl : last.1 = k
      · rw [List.find?_cons_of_pos _ (by simp [hl]), List.find?_cons_of_pos _ (by simp [hl])]
      · have hy : ¬ (y.1 = k) := by omega
        have ih := find?_dedupLoop rest last k
        have ihL : (last :: dedupLoop last rest).find? (fun e => decide (e.1 = k)) =
            (dedupLoop last rest).find? (fun e => decide (e.1 = k)) :=
          List.find?_cons_of_neg _ (by simp [hl])
        have ihR : (last :: rest).find? (fun e => decide (e.1 = k)) =
            rest.find? (fun e => decide (e.1 = k)) :=
          List.find?_cons_of_neg _ (by simp [hl])
        rw [ihL, ihR] at ih
        have hR1 : (last :: y :: rest).find? (fun e => decide (e.1 = k)) =
            (y :: rest).find? (fun e => decide (e.1 = k)) :=
          List.find?_cons_of_neg _ (by simp [hl])
        have hR2 : (y :: rest).find? (fun e => decide (e.1 = k)) =
            rest.find? (fun e => decide (e.1 = k)) :=
          List.find?_cons_of_neg _ (by simp [hy])
        rw [ihL, hR1, hR2]
        exact ih
    · rw [if_neg he]
      by_cases hl : last.1 = k
      · rw [List.find?_cons_of_pos _ (by simp [hl]), List.find?_cons_of_pos _ (by simp [hl])]
      · have hL : (last :: y :: dedupLoop y rest).find? (fun e => decide (e.1 = k)) =
            (y :: dedupLoop y rest).find? (fun e => decide (e.1 = k)) :=
          List.find?_cons_of_neg _ (by simp [hl])
        have hR : (last :: y :: rest).find? (fun e => decide (e.1 = k)) =
            (y :: rest).find? (fun e => decide (e.1 = k)) :=
          List.find?_cons_of_neg _ (by simp [hl])
        rw [hL, hR]
        exact find?_dedupLoop rest y k

/-- Dedup preserves the first hit for every page. -/
theorem find?_dedupByKey :
    ∀ (l : List (Nat × List Nat)) (k : Nat),
      (dedupByKey l).find? (fun e => decide (e.1 = k)) = l.find? (fun e => decide (e.1 = k))
  | [], _ => rfl
  | x :: rest, k => by
    show (x :: dedupLoop x rest).find? (fun e => decide (e.1 = k)) =
      (x :: rest).find? (fun e => decide (e.1 = k))
    exact find?_dedupLoop rest x k

/-- In a list with strictly increasing pages, the member with page `k` is
the first hit of the lookup. -/
theorem find?_eq_of_mem_pairwise :
    ∀ (l : List (Nat × List Nat)) (k : Nat) (t : List Nat),
      List.Pairwise (fun a b => a.1 < b.1) l → (k, t) ∈ l →
      l.find? (fun e => decide (e.1 = k)) = some (k, t)
  | [], _, _, _, hm => by simp at hm
  | e :: rest, k, t, hp, hm => by
    rcases List.mem_cons.mp hm with rfl | hm2
    · rw [List.find?_cons_of_pos _ (by simp)]
    · by_cases he : e.1 = k
      · exfalso
        have hlt := (List.pairwise_cons.mp hp).1 (k, t) hm2
        simp at hlt
        omega
      · rw [List.find?_cons_of_neg _ (by simp [he])]
        exact find?_eq_of_mem_pairwise rest k t (List.pairwise_cons.mp hp).2 hm2

/-- C9: for every raw input, the chapter list is strictly ascending by
start page (so no two chapters share a start page), every emitted chapter
satisfies `end_page ≥ start_page`, and each chapter's title is the title
of the first input entry at its page (stable sort, first occurrence kept,
later duplicates discarded). -/
theorem computeChapters_invariants (raw : List (Nat × List Nat)) (total : Nat) :
    List.Pairwise (fun c d => c.start_page < d.start_page) (computeChapters raw total) ∧
    (∀ c ∈ computeChapters raw total, c.start_page ≤ c.end_page) ∧
    (∀ c ∈ computeChapters raw total,
      (chapterRawInput raw).find? (fun e => decide (e.1 = c.start_page)) =
        some (c.start_page, c.title)) := by
  have hsorted := pairwise_sortByPage (chapterRawInput raw)
  have hchain := chain_lt_dedupByKey _ hsorted
  have hpair : List.Pairwise (fun a b => a.1 < b.1)
      (dedupByKey (sortByPage (chapterRawInput raw))) :=
    @pairwise_of_chain_trans (Nat × List Nat) (fun a b => a.1 < b.1)
      (fun _ _ _ h1 h2 => Nat.lt_trans h1 h2) _ hchain
  refine ⟨assignEnds_start_lt total _ hpair, fun c hc => assignEnds_le total _ c hc, ?_⟩
  intro c hc
  have hmem := assignEnds_mem total _ c hc
  have hfind := find?_eq_of_mem_pairwise _ c.start_page c.title hpair hmem
  rw [← find?_sortByPage, ← find?_dedupByKey]
  exact hfind

/-- Witness for `computeChapters_invariants`: with input
`[(5, A), (3, B), (5, C)]` the chapter starting at page 5 keeps the first
occurrence's title `A`. -/
theorem computeChapters_invariants_witness :
    (chapterRawInput [((5 : Nat), ([65] : List Nat)), (3, [66]), (5, [67])]).find?
      (fun e => decide (e.1 = (⟨5, [65], 10⟩ : Chapter).start_page)) =
      some ((⟨5, [65], 10⟩ : Chapter).start_page, (⟨5, [65], 10⟩ : Chapter).title) :=
  (computeChapters_invariants [(5, [65]), (3, [66]), (5, [67])] 10).2.2
    ⟨5, [65], 10⟩ (by decide)

/-- The stable sort is the identity on sorted input. -/
theorem sortByPage_eq_of_sorted :
    ∀ (l : List (Nat × List Nat)), List.Chain' (fun a b => a.1 ≤ b.1) l → sortByPage l = l
  | [], _ => rfl
  | [_], _ => rfl
  | x :: y :: rest, h => by
    show insertByPage x (sortByPage (y :: rest)) = x :: y :: rest
    rw [sortByPage_eq_of_sorted (y :: rest) (List.chain'_cons.mp h).2]
    show (if x.1 ≤ y.1 then x :: y :: rest else y :: insertByPage x rest) = x :: y :: rest
    rw [if_pos (List.chain'_cons.mp h).1]

/-- Dedup is the identity when adjacent pages strictly increase. -/
theorem dedupLoop_eq_of_chain_lt :
    ∀ (l : List (Nat × List Nat)) (last : Nat × List Nat),
      List.Chain' (fun a b => a.1 < b.1) (last :: l) → dedupLoop last l = l
  | [], _, _ => rfl
  | y :: rest, last, h => by
    have h1 := (List.chain'_cons.mp h).1
    show (if y.1 = last.1 then dedupLoop last rest else y :: dedupLoop y rest) = y :: rest
    rw [if_neg (by omega), dedupLoop_eq_of_chain_lt rest y (List.chain'_cons.mp h).2]

/-- Dedup is the identity on strictly increasing input. -/
theorem dedupByKey_eq_of_chain_lt (l : List (Nat × List Nat))
    (h : List.Chain' (fun a b => a.1 < b.1) l) : dedupByKey l = l := by
  cases l with
  | nil => rfl
  | cons x rest =>
    show x :: dedupLoop x rest = x :: rest
    rw [dedupLoop_eq_of_chain_lt rest x h]

/-- With strictly increasing pages, chapters are mutually disjoint: each
ends strictly before the next one starts. -/
theorem assignEnds_disjoint :
    ∀ (total : Nat) (l : List (Nat × List Nat)),
      List.Pairwise (fun a b => a.1 < b.1) l →
      List.Pairwise (fun c d => c.end_page < d.start_page) (assignEnds total l)
  | _, [], _ => by simp [assignEnds]
  | total, [x], _ => by
    unfold assignEnds
    by_cases hx : x.1 > total
    · rw [if_pos hx]
      exact List.Pairwise.nil
    · rw [if_neg hx]
      simp
  | total, x :: y :: rest, h => by
    have hxy : x.1 < y.1 := (List.pairwise_cons.mp h).1 y (by simp)
    have htail := (List.pairwise_cons.mp h).2
    have hge : ∀ d ∈ assignEnds total (y :: rest), y.1 ≤ d.start_page := by
      intro d hd
      rcases List.mem_cons.mp (assignEnds_mem total (y :: rest) d hd) with heq | hmem
      · have hfst := congrArg Prod.fst heq
        simp at hfst
        omega
      · have hlt := (List.pairwise_cons.mp htail).1 _ hmem
        simp at hlt
        omega
    have hlist : assignEnds total (x :: y :: rest) =
        (⟨x.1, x.2, y.1 - 1⟩ : Chapter) :: assignEnds total (y :: rest) := by
      show (if x.1 > (if y.1 > x.1 then y.1 - 1 else x.1) then []
            else [(⟨x.1, x.2, if y.1 > x.1 then y.1 - 1 else x.1⟩ : Chapter)]) ++
          assignEnds total (y :: rest) =
        (⟨x.1, x.2, y.1 - 1⟩ : Chapter) :: assignEnds total (y :: rest)
      rw [if_pos hxy, if_neg (show ¬ x.1 > y.1 - 1 by omega)]
      rfl
    rw [hlist]
    refine List.Pairwise.cons ?_ (assignEnds_disjoint total (y :: rest) htail)
    intro d hd
    have hy := hge d hd
    show y.1 - 1 < d.start_page
    omega

/-- With strictly increasing pages within bounds, the chapter count equals
the input count and the chapter ranges cover exactly `[s, total]` where
`s` is the first input page. -/
theorem assignEnds_cover :
    ∀ (total : Nat) (l : List (Nat × List Nat)) (s : Nat) (t : List Nat),
      l.head? = some (s, t) →
      List.Pairwise (fun a b => a.1 < b.1) l →
      (∀ x ∈ l, 1 ≤ x.1) →
      (∀ x ∈ l, x.1 ≤ total) →
      (assignEnds total l).length = l.length ∧
      (∀ p, coveredBy (assignEnds total l) p = true ↔ (s ≤ p ∧ p ≤ total))
  | _, [], s, t, hhead, _, _, _ => by simp at hhead
  | total, [x], s, t, hhead, _, hlb, hub => by
    have hx : x = (s, t) := Option.some.inj hhead
    have hxt : x.1 ≤ total := hub x (by simp)
    have hx1 : 1 ≤ x.1 := hlb x (by simp)
    have hs : x.1 = s := by rw [hx]
    have hlist : assignEnds total [x] = [⟨x.1, x.2, total⟩] := by
      show (if x.1 > total then [] else [(⟨x.1, x.2, total⟩ : Chapter)]) =
        [(⟨x.1, x.2, total⟩ : Chapter)]
      rw [if_neg (by omega)]
    refine ⟨by rw [hlist]; rfl, ?_⟩
    intro p
    rw [hlist, coveredBy]
    simp only [List.any_cons, List.any_nil, Bool.or_false, decide_eq_true_eq]
    omega
  | total, x :: y :: rest, s, t, hhead, h, hlb, hub => by
    have hx : x = (s, t) := Option.some.inj hhead
    have hs : x.1 = s := by rw [hx]
    have hxy : x.1 < y.1 := (List.pairwise_cons.mp h).1 y (by simp)
    have htail := (List.pairwise_cons.mp h).2
    have hlb' : ∀ z ∈ y :: rest, 1 ≤ z.1 := fun z hz => hlb z (List.mem_cons_of_mem x hz)
    have hub' : ∀ z ∈ y :: rest, z.1 ≤ total := fun z hz => hub z (List.mem_cons_of_mem x hz)
    have hly : 1 ≤ y.1 := hlb' y (by simp)
    have huy : y.1 ≤ total := hub' y (by simp)
    have ih := assignEnds_cover total (y :: rest) y.1 y.2 rfl htail hlb' hub'
    have hlist : assignEnds total (x :: y :: rest) =
        (⟨x.1, x.2, y.1 - 1⟩ : Chapter) :: assignEnds total (y :: rest) := by
      show (if x.1 > (if y.1 > x.1 then y.1 - 1 else x.1) then []
            else [(⟨x.1, x.2, if y.1 > x.1 then y.1 - 1 else x.1⟩ : Chapter)]) ++
          assignEnds total (y :: rest) =
        (⟨x.1, x.2, y.1 - 1⟩ : Chapter) :: assignEnds total (y :: rest)
      rw [if_pos hxy, if_neg (show ¬ x.1 > y.1 - 1 by omega)]
      rfl
    constructor
    · rw [hlist]
      simp [ih.1]
    · intro p
      rw [hlist, coveredBy, List.any_cons]
      have ihp := ih.2 p
      rw [coveredBy] at ihp
      simp only [Bool.or_eq_true, decide_eq_true_eq, ihp]
      constructor
      · rintro (h' | h') <;> omega
      · intro h'
        by_cases hpy : y.1 ≤ p
        · right
          omega
        · left
          refine ⟨by omega, by omega⟩

/-- C2 (amended): for one or more top-level bookmarks resolving to
strictly increasing pages within `[1, total]`, the chapter list has
exactly as many entries as bookmarks, chapters are mutually disjoint
(each chapter ends strictly before the next starts), and the union of the
ranges covers exactly `[s, total]` where `s` is the first bookmark's
page — hence it covers `[1, total]` precisely when `s = 1`; pages before
the first bookmark's page belong to no chapter. -/
theorem computeChapters_partition
    (raw : List (Nat × List Nat)) (total : Nat) (s : Nat) (t : List Nat)
    (hhead : raw.head? = some (s, t))
    (hinc : List.Pairwise (fun a b => a.1 < b.1) raw)
    (hlb : ∀ x ∈ raw, 1 ≤ x.1)
    (hub : ∀ x ∈ raw, x.1 ≤ total) :
    (computeChapters raw total).length = raw.length ∧
    List.Pairwise (fun c d => c.end_page < d.start_page) (computeChapters raw total) ∧
    (∀ p, coveredBy (computeChapters raw total) p = true ↔ (s ≤ p ∧ p ≤ total)) := by
  have hne : raw ≠ [] := by
    intro h
    rw [h] at hhead
    simp at hhead
  have hri : chapterRawInput raw = raw := by
    cases raw with
    | nil => exact absurd rfl hne
    | cons a l => rfl
  have hchain : List.Chain' (fun a b => a.1 < b.1) raw := List.Pairwise.chain' hinc
  have hchainle : List.Chain' (fun a b => a.1 ≤ b.1) raw :=
    List.Chain'.imp (fun a b hab => Nat.le_of_lt hab) hchain
  have hcc : computeChapters raw total = assignEnds total raw := by
    unfold computeChapters
    rw [hri, sortByPage_eq_of_sorted raw hchainle, dedupByKey_eq_of_chain_lt raw hchain]
  rw [hcc]
  have hc := assignEnds_cover total raw s t hhead hinc hlb hub
  exact ⟨hc.1, assignEnds_disjoint total raw hinc, hc.2⟩

/-- Witness for `computeChapters_partition`: two bookmarks at pages 1 and
4 of a 9-page document yield two chapters covering page 9. -/
theorem computeChapters_partition_witness :
    (computeChapters [((1 : Nat), ([65] : List Nat)), (4, [66])] 9).length = 2 ∧
    (coveredBy (computeChapters [((1 : Nat), ([65] : List Nat)), (4, [66])] 9) 9 = true ↔
      (1 ≤ 9 ∧ 9 ≤ 9)) :=
  ⟨(computeChapters_partition [(1, [65]), (4, [66])] 9 1 [65] rfl (by decide)
      (by decide) (by decide)).1,
   (computeChapters_partition [(1, [65]), (4, [66])] 9 1 [65] rfl (by decide)
      (by decide) (by decide)).2.2 9⟩

/-- C2 counterexample: a single bookmark resolving to page 3 of a 5-page
document yields the single chapter [3, 5]; page 1 is covered by no
chapter, so the union of the ranges is not [1, total_pages]. -/
theorem computeChapters_gap_cex :
    computeChapters [(3, [65])] 5 = [⟨3, [65], 5⟩] ∧
    coveredBy (computeChapters [(3, [65])] 5) 1 = false :=
  ⟨rfl, rfl⟩

/-! ### C5: what the name-tree builder collects -/

/-- The empty table has no keys. -/
theorem ndHasKey_nil (k : List Nat) : ¬ ndHasKey [] k := by
  simp [ndHasKey, ndGet]

/-- Inserting preserves key presence. -/
theorem ndHasKey_insert (m : NamedDests) (k' k : List Nat) (v : Object)
    (h : ndHasKey m k) : ndHasKey (ndInsert m k' v) k := by
  by_cases hk : k' = k
  · subst hk
    unfold ndHasKey
    rw [ndGet_insert_self]
    rfl
  · unfold ndHasKey
    rw [ndGet_insert_ne m k' k v hk]
    exact h

/-- An inserted key is present. -/
theorem ndHasKey_insert_self (m : NamedDests) (k : List Nat) (v : Object) :
    ndHasKey (ndInsert m k v) k := by
  unfold ndHasKey
  rw [ndGet_insert_self]
  rfl

/-- A key present after an insertion was inserted or was already there. -/
theorem ndHasKey_of_insert (m : NamedDests) (k' k : List Nat) (v : Object)
    (h : ndHasKey (ndInsert m k' v) k) : k = k' ∨ ndHasKey m k := by
  by_cases hk : k' = k
  · exact Or.inl hk.symm
  · right
    unfold ndHasKey at h
    rw [ndGet_insert_ne m k' k v hk] at h
    exact h

/-- Pair insertion preserves key presence. -/
theorem insertNamesPairs_mono :
    ∀ (names : List Object) (m : NamedDests) (k : List Nat),
      ndHasKey m k → ndHasKey (insertNamesPairs m names) k
  | [], _, _, h => h
  | [_], _, _, h => h
  | k0 :: v0 :: rest, m, k, h => by
    show ndHasKey (insertNamesPairs
      (match k0 with
       | Object.string bs _ => ndInsert m bs v0
       | Object.name bs => ndInsert m bs v0
       | _ => m) rest) k
    apply insertNamesPairs_mono rest
    cases k0 <;> first | exact h | exact ndHasKey_insert _ _ _ _ h

/-- Pair insertion makes every pair key present. -/
theorem insertNamesPairs_hasKey :
    ∀ (names : List Object) (m : NamedDests) (k : List Nat),
      k ∈ pairKeys names → ndHasKey (insertNamesPairs m names) k
  | [], _, _, hk => by simp [pairKeys] at hk
  | [_], _, _, hk => by simp [pairKeys] at hk
  | k0 :: v0 :: rest, m, k, hk => by
    cases k0 with
    | string bs fmt =>
      rcases List.mem_append.mp hk with h1 | h2
      · simp at h1
        subst h1
        exact insertNamesPairs_mono rest _ _ (ndHasKey_insert_self m _ v0)
      · exact insertNamesPairs_hasKey rest _ k h2
    | name bs =>
      rcases List.mem_append.mp hk with h1 | h2
      · simp at h1
        subst h1
        exact insertNamesPairs_mono rest _ _ (ndHasKey_insert_self m _ v0)
      · exact insertNamesPairs_hasKey rest _ k h2
    | null => exact insertNamesPairs_hasKey rest m k hk
    | boolean b => exact insertNamesPairs_hasKey rest m k hk
    | integer i => exact insertNamesPairs_hasKey rest m k hk
    | real => exact insertNamesPairs_hasKey rest m k hk
    | array es => exact insertNamesPairs_hasKey rest m k hk
    | dict es => exact insertNamesPairs_hasKey rest m k hk
    | stream d => exact insertNamesPairs_hasKey rest m k hk
    | ref i => exact insertNamesPairs_hasKey rest m k hk

/-- Keys present after pair insertion come from the map or the pairs. -/
theorem insertNamesPairs_hasKey_sub :
    ∀ (names : List Object) (m : NamedDests) (k : List Nat),
      ndHasKey (insertNamesPairs m names) k → ndHasKey m k ∨ k ∈ pairKeys names
  | [], _, _, h => Or.inl h
  | [_], _, _, h => Or.inl h
  | k0 :: v0 :: rest, m, k, h => by
    cases k0 with
    | string bs fmt =>
      rcases insertNamesPairs_hasKey_sub rest _ k h with h1 | h2
      · rcases ndHasKey_of_insert m bs k v0 h1 with h3 | h4
        · right
          rw [h3]
          exact List.mem_append.mpr (Or.inl (by simp))
        · exact Or.inl h4
      · exact Or.inr (List.mem_append.mpr (Or.inr h2))
    | name bs =>
      rcases insertNamesPairs_hasKey_sub rest _ k h with h1 | h2
      · rcases ndHasKey_of_insert m bs k v0 h1 with h3 | h4
        · right
          rw [h3]
          exact List.mem_append.mpr (Or.inl (by simp))
        · exact Or.inl h4
      · exact Or.inr (List.mem_append.mpr (Or.inr h2))
    | null => exact insertNamesPairs_hasKey_sub rest m k h
    | boolean b => exact insertNamesPairs_hasKey_sub rest m k h
    | integer i => exact insertNamesPairs_hasKey_sub rest m k h
    | real => exact insertNamesPairs_hasKey_sub rest m k h
    | array es => exact insertNamesPairs_hasKey_sub rest m k h
    | dict es => exact insertNamesPairs_hasKey_sub rest m k h
    | stream d => exact insertNamesPairs_hasKey_sub rest m k h
    | ref i => exact insertNamesPairs_hasKey_sub rest m k h

/-- The legacy insertion loop preserves key presence. -/
theorem insertAll_mono :
    ∀ (entries : Dict) (m : NamedDests) (k : List Nat),
      ndHasKey m k → ndHasKey (insertAll m entries) k
  | [], _, _, h => h
  | (k', v') :: rest, m, k, h => insertAll_mono rest _ k (ndHasKey_insert m k' k v' h)

/-- Keys present after the legacy loop come from the map or the entries. -/
theorem insertAll_sub :
    ∀ (entries : Dict) (m : NamedDests) (k : List Nat),
      ndHasKey (insertAll m entries) k → ndHasKey m k ∨ k ∈ entries.map (fun e => e.1)
  | [], _, _, h => Or.inl h
  | (k', v') :: rest, m, k, h => by
    rcases insertAll_sub rest _ k h with h1 | h2
    · rcases ndHasKey_of_insert m k' k v' h1 with h3 | h4
      · right
        rw [h3]
        simp
      · exact Or.inl h4
    · right
      simp [h2]

/-- The legacy merge preserves key presence. -/
theorem legacyMerge_mono (doc : Document) (catalog : Dict) (m : NamedDests) (k : List Nat)
    (h : ndHasKey m k) : ndHasKey (legacyMerge doc catalog m) k := by
  unfold legacyMerge
  cases dictGet catalog bDests with
  | none => exact h
  | some destsObj =>
    show ndHasKey (match resolveObject doc destsObj with
      | none => m
      | some destsReal =>
        match asDictO destsReal with
        | none => m
        | some entries => insertAll m entries) k
    cases resolveObject doc destsObj with
    | none => exact h
    | some destsReal =>
      show ndHasKey (match asDictO destsReal with
        | none => m
        | some entries => insertAll m entries) k
      cases asDictO destsReal with
      | none => exact h
      | some entries => exact insertAll_mono entries m k h

/-- Keys present after the legacy merge come from the map or the legacy
dictionary. -/
theorem legacyMerge_sub (doc : Document) (catalog : Dict) (m : NamedDests) (k : List Nat)
    (h : ndHasKey (legacyMerge doc catalog m) k) :
    ndHasKey m k ∨ k ∈ legacyKeys doc catalog := by
  unfold legacyMerge at h
  unfold legacyKeys
  cases hd : dictGet catalog bDests with
  | none =>
    rw [hd] at h
    exact Or.inl h
  | some destsObj =>
    rw [hd] at h
    replace h : ndHasKey (match resolveObject doc destsObj with
        | none => m
        | some destsReal =>
          match asDictO destsReal with
          | none => m
          | some entries => insertAll m entries) k := h
    show ndHasKey m k ∨ k ∈ (match resolveObject doc destsObj with
        | none => ([] : List (List Nat))
        | some destsReal =>
          match asDictO destsReal with
          | none => []
          | some entries => entries.map (fun e : List Nat × Object => e.1))
    cases hr : resolveObject doc destsObj with
    | none =>
      rw [hr] at h
      exact Or.inl h
    | some destsReal =>
      rw [hr] at h
      replace h : ndHasKey (match asDictO destsReal with
          | none => m
          | some entries => insertAll m entries) k := h
      show ndHasKey m k ∨ k ∈ (match asDictO destsReal with
          | none => ([] : List (List Nat))
          | some entries => entries.map (fun e : List Nat × Object => e.1))
      cases hdc : asDictO destsReal with
      | none =>
        rw [hdc] at h
        exact Or.inl h
      | some entries =>
        rw [hdc] at h
        exact insertAll_sub entries m k h

/-- The node's own pair insertion preserves key presence. -/
theorem nodeNamesInsert_mono (doc : Document) (node : Dict) (m : NamedDests) (k : List Nat)
    (h : ndHasKey m k) : ndHasKey (nodeNamesInsert doc node m) k := by
  unfold nodeNamesInsert
  cases dictGet node bNames with
  | none => exact h
  | some namesObj =>
    show ndHasKey (match resolveObject doc namesObj with
      | none => m
      | some namesReal =>
        match asArrayO namesReal with
        | none => m
        | some names => insertNamesPairs m names) k
    cases resolveObject doc namesObj with
    | none => exact h
    | some namesReal =>
      show ndHasKey (match asArrayO namesReal with
        | none => m
        | some names => insertNamesPairs m names) k
      cases asArrayO namesReal with
      | none => exact h
      | some names => exact insertNamesPairs_mono names m k h

/-- The node's own pair insertion makes each of its `Names` keys present. -/
theorem nodeNamesInsert_hasKey (doc : Document) (id : ObjectId) (node : Dict)
    (m : NamedDests) (k : List Nat)
    (hnode : getDict doc id = some node)
    (hk : k ∈ pairKeys (ntNamesArr doc id)) :
    ndHasKey (nodeNamesInsert doc node m) k := by
  unfold ntNamesArr at hk
  rw [hnode] at hk
  replace hk : k ∈ pairKeys (match dictGet node bNames with
      | none => ([] : List Object)
      | some namesObj =>
        match resolveObject doc namesObj with
        | none => []
        | some namesReal =>
          match asArrayO namesReal with
          | none => []
          | some names => names) := hk
  unfold nodeNamesInsert
  cases hn : dictGet node bNames with
  | none =>
    rw [hn] at hk
    replace hk : k ∈ pairKeys ([] : List Object) := hk
    simp [pairKeys] at hk
  | some namesObj =>
    rw [hn] at hk
    replace hk : k ∈ pairKeys (match resolveObject doc namesObj with
        | none => ([] : List Object)
        | some namesReal =>
          match asArrayO namesReal with
          | none => []
          | some names => names) := hk
    show ndHasKey (match resolveObject doc namesObj with
      | none => m
      | some namesReal =>
        match asArrayO namesReal with
        | none => m
        | some names => insertNamesPairs m names) k
    cases hr : resolveObject doc namesObj with
    | none =>
      rw [hr] at hk
      replace hk : k ∈ pairKeys ([] : List Object) := hk
      simp [pairKeys] at hk
    | some namesReal =>
      rw [hr] at hk
      replace hk : k ∈ pairKeys (match asArrayO namesReal with
          | none => ([] : List Object)
          | some names => names) := hk
      show ndHasKey (match asArrayO namesReal with
        | none => m
        | some names => insertNamesPairs m names) k
      cases ha : asArrayO namesReal with
      | none =>
        rw [ha] at hk
        replace hk : k ∈ pairKeys ([] : List Object) := hk
        simp [pairKeys] at hk
      | some names =>
        rw [ha] at hk
        exact insertNamesPairs_hasKey names m k hk

/-- One-step unfolding of the fueled name-tree recursion. -/
theorem collectNameTree_succ (doc : Document) (fuel : Nat) (id : ObjectId) (m : NamedDests) :
    collectNameTree doc (fuel + 1) id m =
      match getDict doc id with
      | none => some m
      | some node =>
        match dictGet node bKids with
        | none => some (nodeNamesInsert doc node m)
        | some kidsObj =>
          match resolveObject doc kidsObj with
          | none => some (nodeNamesInsert doc node m)
          | some kidsReal =>
            match asArrayO kidsReal with
            | none => some (nodeNamesInsert doc node m)
            | some kids =>
              collectKidsFold doc fuel kids (some (nodeNamesInsert doc node m)) := rfl

/-- The kids fold propagates a dead accumulator. -/
theorem collectKidsFold_none :
    ∀ (doc : Document) (fuel : Nat) (kids : List Object),
      collectKidsFold doc fuel kids none = none
  | _, _, [] => rfl
  | doc, fuel, _ :: rest => collectKidsFold_none doc fuel rest

/-- The kids fold preserves key presence, given that the recursion at the
inner fuel does. -/
theorem collectKidsFold_mono (doc : Document) (fuel : Nat)
    (hIH : ∀ id m res, collectNameTree doc fuel id m = some res →
      ∀ k, ndHasKey m k → ndHasKey res k) :
    ∀ (kids : List Object) (m res : NamedDests),
      collectKidsFold doc fuel kids (some m) = some res →
      ∀ k, ndHasKey m k → ndHasKey res k
  | [], m, res, hf, k, hk => by
    injection hf with h
    rw [← h]
    exact hk
  | kid :: rest, m, res, hf, k, hk => by
    replace hf : collectKidsFold doc fuel rest
        (match asReferenceO kid with
         | some kidRef => collectNameTree doc fuel kidRef m
         | none => some m) = some res := hf
    cases hr : asReferenceO kid with
    | none =>
      rw [hr] at hf
      exact collectKidsFold_mono doc fuel hIH rest m res hf k hk
    | some kidRef =>
      rw [hr] at hf
      replace hf : collectKidsFold doc fuel rest (collectNameTree doc fuel kidRef m) =
          some res := hf
      cases hct : collectNameTree doc fuel kidRef m with
      | none =>
        rw [hct, collectKidsFold_none doc fuel rest] at hf
        cases hf
      | some m2 =>
        rw [hct] at hf
        exact collectKidsFold_mono doc fuel hIH rest m2 res hf k (hIH kidRef m m2 hct k hk)

/-- The name-tree recursion only ever adds keys. -/
theorem collectNameTree_mono :
    ∀ (fuel : Nat) (doc : Document) (id : ObjectId) (m res : NamedDests),
      collectNameTree doc fuel id m = some res →
      ∀ k, ndHasKey m k → ndHasKey res k
  | 0, _, _, _, _, h, _, _ => by cases h
  | fuel + 1, doc, id, m, res, h, k, hk => by
    rw [collectNameTree_succ] at h
    cases hd : getDict doc id with
    | none =>
      simp only [hd] at h
      injection h with h
      rw [← h]
      exact hk
    | some node =>
      simp only [hd] at h
      have hm1 : ndHasKey (nodeNamesInsert doc node m) k :=
        nodeNamesInsert_mono doc node m k hk
      cases hkid : dictGet node bKids with
      | none =>
        simp only [hkid] at h
        injection h with h
        rw [← h]
        exact hm1
      | some kidsObj =>
        simp only [hkid] at h
        cases hkr : resolveObject doc kidsObj with
        | none =>
          simp only [hkr] at h
          injection h with h
          rw [← h]
          exact hm1
        | some kidsReal =>
          simp only [hkr] at h
          cases hka : asArrayO kidsReal with
          | none =>
            simp only [hka] at h
            injection h with h
            rw [← h]
            exact hm1
          | some kids =>
            simp only [hka] at h
            exact collectKidsFold_mono doc fuel
              (fun i mm rr hh k' hk' => collectNameTree_mono fuel doc i mm rr hh k' hk')
              kids (nodeNamesInsert doc node m) res h k hm1

/-- On success, the visited node's own `Names` keys are in the result. -/
theorem collectNameTree_names_keys :
    ∀ (fuel : Nat) (doc : Document) (id : ObjectId) (m res : NamedDests),
      collectNameTree doc fuel id m = some res →
      ∀ k, k ∈ pairKeys (ntNamesArr doc id) → ndHasKey res k
  | 0, _, _, _, _, h, _, _ => by cases h
  | fuel + 1, doc, id, m, res, h, k, hk => by
    rw [collectNameTree_succ] at h
    cases hd : getDict doc id with
    | none =>
      unfold ntNamesArr at hk
      rw [hd] at hk
      replace hk : k ∈ pairKeys ([] : List Object) := hk
      simp [pairKeys] at hk
    | some node =>
      simp only [hd] at h
      have hm1 : ndHasKey (nodeNamesInsert doc node m) k :=
        nodeNamesInsert_hasKey doc id node m k hd hk
      cases hkid : dictGet node bKids with
      | none =>
        simp only [hkid] at h
        injection h with h
        rw [← h]
        exact hm1
      | some kidsObj =>
        simp only [hkid] at h
        cases hkr : resolveObject doc kidsObj with
        | none =>
          simp only [hkr] at h
          injection h with h
          rw [← h]
          exact hm1
        | some kidsReal =>
          simp only [hkr] at h
          cases hka : asArrayO kidsReal with
          | none =>
            simp only [hka] at h
            injection h with h
            rw [← h]
            exact hm1
          | some kids =>
            simp only [hka] at h
            exact collectKidsFold_mono doc fuel
              (fun i mm rr hh k' hk' => collectNameTree_mono fuel doc i mm rr hh k' hk')
              kids (nodeNamesInsert doc node m) res h k hm1

/-- A successful kids fold ran the recursion on every `Reference` kid, and
the keys of that run survive into the final result. -/
theorem collectKidsFold_extract (doc : Document) (fuel : Nat) :
    ∀ (kids : List Object) (m res : NamedDests) (kidRef : ObjectId),
      collectKidsFold doc fuel kids (some m) = some res →
      Object.ref kidRef ∈ kids →
      ∃ m2 res2, collectNameTree doc fuel kidRef m2 = some res2 ∧
        (∀ k, ndHasKey res2 k → ndHasKey res k)
  | [], _, _, _, _, hmem => absurd hmem (List.not_mem_nil _)
  | kid :: rest, m, res, kidRef, hf, hmem => by
    replace hf : collectKidsFold doc fuel rest
        (match asReferenceO kid with
         | some r => collectNameTree doc fuel r m
         | none => some m) = some res := hf
    by_cases hkid : kid = Object.ref kidRef
    · subst hkid
      replace hf : collectKidsFold doc fuel rest (collectNameTree doc fuel kidRef m) =
          some res := hf
      cases hct : collectNameTree doc fuel kidRef m with
      | none =>
        rw [hct, collectKidsFold_none doc fuel rest] at hf
        cases hf
      | some m2 =>
        rw [hct] at hf
        exact ⟨m, m2, hct,
          fun k hk => collectKidsFold_mono doc fuel
            (fun i mm rr hh k' hk' => collectNameTree_mono fuel doc i mm rr hh k' hk')
            rest m2 res hf k hk⟩
    · have hmem' : Object.ref kidRef ∈ rest := by
        rcases List.mem_cons.mp hmem with h1 | h2
        · exact absurd h1.symm hkid
        · exact h2
      cases hr : asReferenceO kid with
      | none =>
        rw [hr] at hf
        exact collectKidsFold_extract doc fuel rest m res kidRef hf hmem'
      | some r =>
        rw [hr] at hf
        replace hf : collectKidsFold doc fuel rest (collectNameTree doc fuel r m) =
            some res := hf
        cases hct : collectNameTree doc fuel r m with
        | none =>
          rw [hct, collectKidsFold_none doc fuel rest] at hf
          cases hf
        | some m' =>
          rw [hct] at hf
          exact collectKidsFold_extract doc fuel rest m' res kidRef hf hmem'

/-- On success, the `Names` keys of every node reachable through
`Reference` entries of `Kids` arrays are in the result table. -/
theorem collectNameTree_reach :
    ∀ (fuel : Nat) (doc : Document) (id : ObjectId) (m res : NamedDests),
      collectNameTree doc fuel id m = some res →
      ∀ nid, NTReach doc id nid →
      ∀ k, k ∈ pairKeys (ntNamesArr doc nid) → ndHasKey res k
  | 0, _, _, _, _, h, _, _, _, _ => by cases h
  | fuel + 1, doc, id, m, res, h, nid, hreach, k, hk => by
    rcases Relation.ReflTransGen.cases_head hreach with heq | ⟨c, hstep, hreach2⟩
    · rw [← heq] at hk
      exact collectNameTree_names_keys (fuel + 1) doc id m res h k hk
    · cases hstep with
      | step hnode hkids hkr hka hmem =>
        rename_i node kidsObj kidsReal kids
        rw [collectNameTree_succ] at h
        simp only [hnode, hkids, hkr, hka] at h
        obtain ⟨m2, res2, hct, hsub⟩ :=
          collectKidsFold_extract doc fuel kids (nodeNamesInsert doc node m) res c h hmem
        exact hsub k (collectNameTree_reach fuel doc c m2 res2 hct nid hreach2 k hk)

/-- C5 (amended): only when the catalog's Names→Dests entry is stored as a
`Reference` does the table builder recursively collect: every key in the
`Names` array of any node reachable through `Reference` entries of `Kids`
arrays ends up in the table (when collection completes).  When the entry is
a direct dictionary, only that dictionary's own `Names` array is read —
every key of the table comes from it or from the legacy `Dests`
dictionary, so descendants reachable through `Kids` are not collected. -/
theorem nameTree_root_storage
    (doc : Document) (fuel : Nat) (table : NamedDests) (catalog : Dict)
    (namesObj namesReal : Object) (namesDict : Dict) (destsObj destsReal : Object)
    (destsDict : Dict)
    (hcat : catalogOf doc = some catalog)
    (hnames : dictGet catalog bNames = some namesObj)
    (hnreal : resolveObject doc namesObj = some namesReal)
    (hndict : asDictO namesReal = some namesDict)
    (hdests : dictGet namesDict bDests = some destsObj)
    (hdreal : resolveObject doc destsObj = some destsReal)
    (hddict : asDictO destsReal = some destsDict)
    (hbuild : buildNamedDests doc fuel = some table) :
    (∀ rootId, asReferenceO destsObj = some rootId →
      ∀ nid, NTReach doc rootId nid →
      ∀ k, k ∈ pairKeys (ntNamesArr doc nid) → ndHasKey table k) ∧
    (asReferenceO destsObj = none →
      ∀ k, ndHasKey table k →
        k ∈ pairKeys (directRootNames doc destsDict) ∨ k ∈ legacyKeys doc catalog) := by
  unfold buildNamedDests at hbuild
  rw [hcat] at hbuild
  replace hbuild :
      (match nameTreeFromCatalog doc catalog fuel with
       | none => none
       | some m => some (legacyMerge doc catalog m)) = some table := hbuild
  cases hnt0 : nameTreeFromCatalog doc catalog fuel with
  | none =>
    rw [hnt0] at hbuild
    cases hbuild
  | some m =>
    rw [hnt0] at hbuild
    injection hbuild with htable
    unfold nameTreeFromCatalog at hnt0
    simp only [hnames, hnreal, hndict, hdests, hdreal, hddict] at hnt0
    constructor
    · intro rootId href nid hreach k hk
      rw [href] at hnt0
      replace hnt0 : collectNameTree doc fuel rootId [] = some m := hnt0
      rw [← htable]
      exact legacyMerge_mono doc catalog m k
        (collectNameTree_reach fuel doc rootId [] m hnt0 nid hreach k hk)
    · intro href k hk
      rw [href] at hnt0
      replace hnt0 : (match dictGet destsDict bNames with
          | none => some ([] : NamedDests)
          | some namesArrObj =>
            match resolveObject doc namesArrObj with
            | none => some []
            | some namesArrReal =>
              match asArrayO namesArrReal with
              | none => some []
              | some names => some (insertNamesPairs [] names)) = some m := hnt0
      rw [← htable] at hk
      rcases legacyMerge_sub doc catalog m k hk with hm | hleg
      · left
        unfold directRootNames
        cases hn : dictGet destsDict bNames with
        | none =>
          rw [hn] at hnt0
          injection hnt0 with hnt0
          rw [← hnt0] at hm
          exact absurd hm (ndHasKey_nil k)
        | some namesArrObj =>
          rw [hn] at hnt0
          replace hnt0 : (match resolveObject doc namesArrObj with
              | none => some ([] : NamedDests)
              | some namesArrReal =>
                match asArrayO namesArrReal with
                | none => some []
                | some names => some (insertNamesPairs [] names)) = some m := hnt0
          show k ∈ pairKeys (match resolveObject doc namesArrObj with
              | none => ([] : List Object)
              | some namesArrReal =>
                match asArrayO namesArrReal with
                | none => []
                | some names => names)
          cases hr : resolveObject doc namesArrObj with
          | none =>
            rw [hr] at hnt0
            injection hnt0 with hnt0
            rw [← hnt0] at hm
            exact absurd hm (ndHasKey_nil k)
          | some namesArrReal =>
            rw [hr] at hnt0
            replace hnt0 : (match asArrayO namesArrReal with
                | none => some ([] : NamedDests)
                | some names => some (insertNamesPairs [] names)) = some m := hnt0
            show k ∈ pairKeys (match asArrayO namesArrReal with
                | none => ([] : List Object)
                | some names => names)
            cases ha : asArrayO namesArrReal with
            | none =>
              rw [ha] at hnt0
              injection hnt0 with hnt0
              rw [← hnt0] at hm
              exact absurd hm (ndHasKey_nil k)
            | some names =>
              rw [ha] at hnt0
              injection hnt0 with hnt0
              rw [← hnt0] at hm
              rcases insertNamesPairs_hasKey_sub names [] k hm with h0 | hkp
              · exact absurd h0 (ndHasKey_nil k)
              · exact hkp
      · exact Or.inr hleg

/-- Witness for `nameTree_root_storage`: in `docC5ref` the Names→Dests
entry is a `Reference` to a node binding the key `[107]`, and that key is
present in the built table. -/
theorem nameTree_root_storage_witness :
    ndHasKey [([107], Object.integer 7)] [107] :=
  (nameTree_root_storage docC5ref 2 [([107], Object.integer 7)]
    [(bNames, Object.dict [(bDests, Object.ref (2, 0))])]
    (Object.dict [(bDests, Object.ref (2, 0))])
    (Object.dict [(bDests, Object.ref (2, 0))])
    [(bDests, Object.ref (2, 0))]
    (Object.ref (2, 0))
    (Object.dict [(bNames, Object.array [Object.string [107] StringFormat.literal,
      Object.integer 7])])
    [(bNames, Object.array [Object.string [107] StringFormat.literal, Object.integer 7])]
    rfl rfl rfl rfl rfl rfl rfl rfl).1
    (2, 0) rfl (2, 0) Relation.ReflTransGen.refl [107] (by decide)

/-- C5 counterexample: in `docC5` the Names→Dests entry is a direct
dictionary whose `Kids` array points at a leaf node binding the key
`[107]`, yet the built table is empty — the descendants of a
direct-dictionary root are not collected. -/
theorem nameTree_direct_dict_kids_ignored_cex :
    buildNamedDests docC5 10 = some [] ∧
    getObject docC5 (3, 0) =
      some (.dict [(bNames, .array [.string [107] .literal, .integer 7])]) :=
  ⟨rfl, rfl⟩

end PdfSplit
